import Mathlib

set_option maxHeartbeats 1000000

/-! Verification of the Monkey lexer (src/lexer/lib.rs).

The input string is modelled as its list of characters. The Rust cursor
advances by character index (chars().nth) while length guards and slicing
use byte offsets (str::len and the index operator), so both views are
modelled: byteLen is the UTF-8 byte length of the input and sliceStr is
Rust byte slicing, which panics off character boundaries. Rust panics are
the err outcome; the source while loops, whose cursor strictly advances,
are run on explicit fuel large enough that fuel exhaustion is unreachable. -/

/-- Outcome of running a piece of the lexer: a normal result, a Rust panic
(err), or exhaustion of the explicit fuel that models the source loops. -/
inductive Res (α : Type) where
  | ok (a : α)
  | err
  | fuelOut
deriving DecidableEq, Repr

def Res.bind {α β : Type} : Res α → (α → Res β) → Res β
  | .ok a, f => f a
  | .err, _ => .err
  | .fuelOut, _ => .fuelOut

/-- Half-open source range. The second Rust field is a reserved word in
Lean, so it is called stop here. -/
structure Span where
  start : Nat
  stop : Nat
deriving DecidableEq, Repr

/-- The token kinds of the token module, as enumerated by the spec. -/
inductive TokenKind where
  | ILLEGAL
  | EOF
  | IDENT (x : List Char)
  | INT (n : Int)
  | ASSIGN
  | PLUS
  | MINUS
  | BANG
  | ASTERISK
  | SLASH
  | LT
  | GT
  | EQ
  | NotEq
  | COMMA
  | SEMICOLON
  | COLON
  | LPAREN
  | RPAREN
  | LBRACE
  | RBRACE
  | LBRACKET
  | RBRACKET
  | FUNCTION
  | LET
  | TRUE
  | FALSE
  | IF
  | ELSE
  | RETURN
  | STRING (x : List Char)
deriving DecidableEq, Repr

structure Token where
  span : Span
  kind : TokenKind
deriving DecidableEq, Repr

/-- Modelled from the spec: the keyword-lookup function of the token module
(the file token.rs is not among the sources). The spec names the reserved
words fn, let, true, false, if, else and return, mapped to their keyword
kinds; any other text becomes an identifier. -/
def lookup_identifier (x : List Char) : TokenKind :=
  if x = ['f', 'n'] then .FUNCTION
  else if x = ['l', 'e', 't'] then .LET
  else if x = ['t', 'r', 'u', 'e'] then .TRUE
  else if x = ['f', 'a', 'l', 's', 'e'] then .FALSE
  else if x = ['i', 'f'] then .IF
  else if x = ['e', 'l', 's', 'e'] then .ELSE
  else if x = ['r', 'e', 't', 'u', 'r', 'n'] then .RETURN
  else .IDENT x

/-- Number of UTF-8 bytes of a character, as in Rust char::len_utf8. -/
def charBytes (c : Char) : Nat :=
  if c.toNat < 128 then 1
  else if c.toNat < 2048 then 2
  else if c.toNat < 65536 then 3
  else 4

/-- Byte length of the input, as Rust str::len. -/
def byteLen (s : List Char) : Nat := (s.map charBytes).sum

/-- The character at a character index, or the zero sentinel past the end.
Used to state lemmas; the executable code below performs the same lookup
with the byte-length guard of the source. -/
def chAt (s : List Char) (i : Nat) : Char :=
  if h : i < s.length then s.get ⟨i, h⟩ else Char.ofNat 0

/-- Character index of a byte offset when the offset falls on a character
boundary of the input, none otherwise. -/
def boundaryIdx (s : List Char) (b : Nat) : Option Nat :=
  match s, b with
  | _, 0 => some 0
  | [], _ + 1 => none
  | c :: cs, b + 1 =>
    if charBytes c ≤ b + 1 then (boundaryIdx cs (b + 1 - charBytes c)).map (· + 1)
    else none

/-- Rust byte slicing of the input string, as used by read_identifier,
read_number and read_string: the characters between the two byte offsets
when both are in-range ordered character boundaries, a panic otherwise. -/
def sliceStr (s : List Char) (a b : Nat) : Res (List Char) :=
  match boundaryIdx s a, boundaryIdx s b with
  | some i, some j => if i ≤ j then .ok ((s.drop i).take (j - i)) else .err
  | _, _ => .err

/-- Translation of is_letter: ASCII alphabetic or underscore (codepoints
65 to 90, 97 to 122, or 95). -/
def is_letter (c : Char) : Bool :=
  (65 ≤ c.toNat && c.toNat ≤ 90) || (97 ≤ c.toNat && c.toNat ≤ 122) || c.toNat = 95

/-- Translation of is_digit: the character is between the digit zero and
the digit nine (codepoints 48 to 57). -/
def is_digit (c : Char) : Bool :=
  48 ≤ c.toNat && c.toNat ≤ 57

/-- Rust char::is_ascii_whitespace: space, horizontal tab, line feed, form
feed or carriage return. -/
def is_ascii_whitespace (c : Char) : Bool :=
  c.toNat = 32 || c.toNat = 9 || c.toNat = 10 || c.toNat = 12 || c.toNat = 13

/-- Value of a decimal digit string. -/
def natOfDigits (cs : List Char) : Nat :=
  cs.foldl (fun a c => a * 10 + (c.toNat - 48)) 0

/-- Rust str::parse::<i64> composed with unwrap, applied to the sliced
digit run: the value when the slice is a nonempty all-digit string whose
value fits in an i64, a panic otherwise. -/
def parse_i64 (cs : List Char) : Res Int :=
  if cs ≠ [] ∧ cs.all is_digit = true ∧ natOfDigits cs ≤ 9223372036854775807 then
    .ok (Int.ofNat (natOfDigits cs))
  else .err

/-- The mutable cursor of the Lexer struct; the borrowed input is passed
separately to every operation. -/
structure Lexer where
  position : Nat
  read_position : Nat
  ch : Char
deriving DecidableEq, Repr

/-- Translation of Lexer::read_char: the zero sentinel once read_position
passes the byte length, otherwise the read_position-th character; a failing
chars().nth lookup inside the byte-length guard is the panic of the source. -/
def read_char (s : List Char) (l : Lexer) : Res Lexer :=
  if byteLen s ≤ l.read_position then
    .ok { position := l.read_position, read_position := l.read_position + 1, ch := Char.ofNat 0 }
  else
    match s.get? l.read_position with
    | some c => .ok { position := l.read_position, read_position := l.read_position + 1, ch := c }
    | none => .err

/-- Translation of Lexer::peek_char. -/
def peek_char (s : List Char) (l : Lexer) : Res Char :=
  if byteLen s ≤ l.read_position then .ok (Char.ofNat 0)
  else
    match s.get? l.read_position with
    | some c => .ok c
    | none => .err

/-- Translation of Lexer::new. -/
def lexer_new (s : List Char) : Res Lexer :=
  read_char s { position := 0, read_position := 0, ch := Char.ofNat 0 }

/-- The while loop of skip_whitespace, on fuel. -/
def skip_whitespace (s : List Char) : Nat → Lexer → Res Lexer
  | 0, l => if is_ascii_whitespace l.ch then .fuelOut else .ok l
  | fuel + 1, l =>
    if is_ascii_whitespace l.ch then (read_char s l).bind (skip_whitespace s fuel)
    else .ok l

/-- The while loop of read_identifier, on fuel. -/
def ident_loop (s : List Char) : Nat → Lexer → Res Lexer
  | 0, l => if is_letter l.ch then .fuelOut else .ok l
  | fuel + 1, l =>
    if is_letter l.ch then (read_char s l).bind (ident_loop s fuel)
    else .ok l

/-- The while loop of read_number, on fuel. -/
def digit_loop (s : List Char) : Nat → Lexer → Res Lexer
  | 0, l => if is_digit l.ch then .fuelOut else .ok l
  | fuel + 1, l =>
    if is_digit l.ch then (read_char s l).bind (digit_loop s fuel)
    else .ok l

/-- The read-then-test loop of read_string, on fuel: advance, stop after
reaching a double quote or the zero sentinel. -/
def string_loop (s : List Char) : Nat → Lexer → Res Lexer
  | 0, _ => .fuelOut
  | fuel + 1, l =>
    (read_char s l).bind fun l1 =>
      if l1.ch = '\x22' ∨ l1.ch = Char.ofNat 0 then .ok l1
      else string_loop s fuel l1

/-- Translation of Lexer::read_identifier: remember the start position,
consume letters, slice the input between the two positions. -/
def read_identifier (s : List Char) (fuel : Nat) (l : Lexer) : Res (Nat × Nat × List Char × Lexer) :=
  (ident_loop s fuel l).bind fun l1 =>
    (sliceStr s l.position l1.position).bind fun x =>
      .ok (l.position, l1.position, x, l1)

/-- Translation of Lexer::read_number: like read_identifier over digits,
then parse the slice as an i64 and unwrap. -/
def read_number (s : List Char) (fuel : Nat) (l : Lexer) : Res (Nat × Nat × Int × Lexer) :=
  (digit_loop s fuel l).bind fun l1 =>
    (sliceStr s l.position l1.position).bind fun x =>
      (parse_i64 x).bind fun v =>
        .ok (l.position, l1.position, v, l1)

/-- Translation of Lexer::read_string: pos is the position one past the
opening quote; loop to a closing quote or the sentinel, slice the content,
consume the closing quote when present, and return pos - 1 (the opening
quote) with the position after the optional consume. -/
def read_string (s : List Char) (fuel : Nat) (l : Lexer) : Res (Nat × Nat × List Char × Lexer) :=
  (string_loop s fuel l).bind fun l1 =>
    (sliceStr s (l.position + 1) l1.position).bind fun x =>
      (if l1.ch = '\x22' then read_char s l1 else .ok l1).bind fun l2 =>
        .ok (l.position, l2.position, x, l2)

/-- The shared tail of the simple branches of next_token: one final
read_char, then a token whose span is derived from the final cursor. -/
def finish_simple (s : List Char) (l : Lexer) (k : TokenKind) : Res (Token × Lexer) :=
  (read_char s l).bind fun l2 =>
    .ok ({ span := { start := l2.position - 1, stop := l2.read_position - 1 }, kind := k }, l2)

/-- The dispatch of next_token on the current character, after whitespace
has been skipped: the match expression of the source. -/
def next_token_core (s : List Char) (fuel : Nat) (l : Lexer) : Res (Token × Lexer) :=
  if l.ch = '=' then
    (peek_char s l).bind fun p =>
      if p = '=' then (read_char s l).bind fun l1 => finish_simple s l1 .EQ
      else finish_simple s l .ASSIGN
  else if l.ch = ';' then finish_simple s l .SEMICOLON
  else if l.ch = '(' then finish_simple s l .LPAREN
  else if l.ch = ')' then finish_simple s l .RPAREN
  else if l.ch = ',' then finish_simple s l .COMMA
  else if l.ch = '+' then finish_simple s l .PLUS
  else if l.ch = '-' then finish_simple s l .MINUS
  else if l.ch = '!' then
    (peek_char s l).bind fun p =>
      if p = '=' then (read_char s l).bind fun l1 => finish_simple s l1 .NotEq
      else finish_simple s l .BANG
  else if l.ch = '*' then finish_simple s l .ASTERISK
  else if l.ch = '/' then finish_simple s l .SLASH
  else if l.ch = '<' then finish_simple s l .LT
  else if l.ch = '>' then finish_simple s l .GT
  else if l.ch = '\x7b' then finish_simple s l .LBRACE
  else if l.ch = '\x7d' then finish_simple s l .RBRACE
  else if l.ch = '[' then finish_simple s l .LBRACKET
  else if l.ch = ':' then finish_simple s l .COLON
  else if l.ch = ']' then finish_simple s l .RBRACKET
  else if l.ch = Char.ofNat 0 then finish_simple s l .EOF
  else if l.ch = '\x22' then
    (read_string s fuel l).bind fun r =>
      .ok ({ span := { start := r.1, stop := r.2.1 }, kind := .STRING r.2.2.1 }, r.2.2.2)
  else if is_letter l.ch then
    (read_identifier s fuel l).bind fun r =>
      .ok ({ span := { start := r.1, stop := r.2.1 }, kind := lookup_identifier r.2.2.1 }, r.2.2.2)
  else if is_digit l.ch then
    (read_number s fuel l).bind fun r =>
      .ok ({ span := { start := r.1, stop := r.2.1 }, kind := .INT r.2.2.1 }, r.2.2.2)
  else finish_simple s l .ILLEGAL

/-- Translation of Lexer::next_token. The fuel byteLen s + 2 strictly
exceeds the number of iterations any of the source loops can make, since
each iteration advances read_position by one and every loop stops at the
zero sentinel, which read_char produces as soon as read_position reaches
the byte length. -/
def next_token (s : List Char) (l : Lexer) : Res (Token × Lexer) :=
  (skip_whitespace s (byteLen s + 2) l).bind (next_token_core s (byteLen s + 2))

/-- The cursor after n calls of next_token. -/
def run_n (s : List Char) : Nat → Lexer → Res Lexer
  | 0, l => .ok l
  | n + 1, l => (next_token s l).bind fun tl => run_n s n tl.2

/-- The token-collecting helper of the tests: scan until the first Eof
token, which is included; the fuel bounds the number of calls. -/
def test_token_set (s : List Char) : Nat → Lexer → Res (List Token)
  | 0, _ => .fuelOut
  | n + 1, l =>
    (next_token s l).bind fun tl =>
      if tl.1.kind = .EOF then .ok [tl.1]
      else (test_token_set s n tl.2).bind fun ts => .ok (tl.1 :: ts)


/-- Every character of the input is a single UTF-8 byte. -/
def allAscii (s : List Char) : Prop := ∀ c ∈ s, c.toNat < 128

/-- The cursor invariant: the read position is one past the position, and
the current character is the one at the position (or the sentinel). For
single-byte inputs this is maintained by every successful read_char. -/
def LexInv (s : List Char) (l : Lexer) : Prop :=
  l.read_position = l.position + 1 ∧ l.ch = chAt s l.position

/-- The cursor invariant for arbitrary inputs: the read position is one
past the position, and the current character is either the sentinel with
the position at or past the byte length, or the character stored at the
position. Every successful read_char establishes it. -/
def LexInvGen (s : List Char) (l : Lexer) : Prop :=
  l.read_position = l.position + 1 ∧
    ((byteLen s ≤ l.position ∧ l.ch = Char.ofNat 0) ∨
      (l.position < byteLen s ∧ s.get? l.position = some l.ch))

/-- The characters read_string collects: everything up to (excluding) the
first double quote or zero character. -/
def string_content (c : Char) : Bool :=
  if c = '\x22' ∨ c = Char.ofNat 0 then false else true

/-- The single-character operator and punctuation branches of next_token,
excluding the two lookahead characters. -/
def opKind (c : Char) : Option TokenKind :=
  if c = ';' then some .SEMICOLON
  else if c = '(' then some .LPAREN
  else if c = ')' then some .RPAREN
  else if c = ',' then some .COMMA
  else if c = '+' then some .PLUS
  else if c = '-' then some .MINUS
  else if c = '*' then some .ASTERISK
  else if c = '/' then some .SLASH
  else if c = '<' then some .LT
  else if c = '>' then some .GT
  else if c = '\x7b' then some .LBRACE
  else if c = '\x7d' then some .RBRACE
  else if c = '[' then some .LBRACKET
  else if c = ':' then some .COLON
  else if c = ']' then some .RBRACKET
  else none

/-- The recognized operator and punctuation characters of section 4.1. -/
def opChar (c : Char) : Bool :=
  (opKind c).isSome || c = '=' || c = '!'

/-- The single-character kind mapping of section 4.1. -/
def charKind (c : Char) : TokenKind :=
  if c = '=' then .ASSIGN
  else if c = '!' then .BANG
  else
    match opKind c with
    | some k => k
    | none => .ILLEGAL

/-- The token kind sequence of section 4.1 for an operator-only input: the
character-by-character mapping, with the lookahead rules for the equals
and bang characters. -/
def specMap : List Char → List TokenKind
  | [] => []
  | [c] => [charKind c]
  | c :: d :: r =>
    if (c = '=' ∨ c = '!') ∧ d = '=' then
      (if c = '=' then .EQ else .NotEq) :: specMap r
    else charKind c :: specMap (d :: r)

/-- Slice of the input at the character offsets of a token span. -/
def lexeme (s : List Char) (t : Token) : List Char :=
  (s.drop t.span.start).take (t.span.stop - t.span.start)

/-- The maximal letter run starting at a position. -/
def letterRunAt (s : List Char) (p : Nat) : List Char :=
  (s.drop p).takeWhile is_letter

/-- The string content collected from the character after the opening
quote at position p. -/
def strRun (s : List Char) (p : Nat) : List Char :=
  (s.drop (p + 1)).takeWhile string_content

/-- The cursor position at which the string loop stops: the closing quote
or zero character, or the input end. -/
def strEnd (s : List Char) (p : Nat) : Nat :=
  p + 1 + (strRun s p).length

/-- The maximal digit run starting at a position. -/
def digitRunAt (s : List Char) (p : Nat) : List Char :=
  (s.drop p).takeWhile is_digit

/-- No digit run of the input overflows a 64-bit signed integer. -/
def noOverflow (s : List Char) : Prop :=
  ∀ p, p < s.length → natOfDigits (digitRunAt s p) ≤ 9223372036854775807

/-- Printable ASCII or ASCII whitespace. -/
def goodChar (c : Char) : Bool :=
  (32 ≤ c.toNat && c.toNat ≤ 126) || c.toNat = 9 || c.toNat = 10 || c.toNat = 13 || c.toNat = 12

/-- The span slicing property claimed for tokens: slicing the input at the
span character offsets reproduces the source text of the token, as far as
that text is determined by the token. For Eq, NotEq and Eof no demand is
made (those are handled separately), and for Illegal the slice is the
single consumed character. -/
def spanOK (s : List Char) (t : Token) : Prop :=
  match t.kind with
  | .IDENT x => lexeme s t = x
  | .FUNCTION => lexeme s t = ['f', 'n']
  | .LET => lexeme s t = ['l', 'e', 't']
  | .TRUE => lexeme s t = ['t', 'r', 'u', 'e']
  | .FALSE => lexeme s t = ['f', 'a', 'l', 's', 'e']
  | .IF => lexeme s t = ['i', 'f']
  | .ELSE => lexeme s t = ['e', 'l', 's', 'e']
  | .RETURN => lexeme s t = ['r', 'e', 't', 'u', 'r', 'n']
  | .INT n => lexeme s t ≠ [] ∧ (lexeme s t).all is_digit = true ∧
      Int.ofNat (natOfDigits (lexeme s t)) = n
  | .STRING x => lexeme s t = '\x22' :: x ++ ['\x22'] ∨ lexeme s t = '\x22' :: x
  | .ILLEGAL => t.span.stop = t.span.start + 1 ∧ lexeme s t = [chAt s t.span.start]
  | .ASSIGN => lexeme s t = ['=']
  | .PLUS => lexeme s t = ['+']
  | .MINUS => lexeme s t = ['-']
  | .BANG => lexeme s t = ['!']
  | .ASTERISK => lexeme s t = ['*']
  | .SLASH => lexeme s t = ['/']
  | .LT => lexeme s t = ['<']
  | .GT => lexeme s t = ['>']
  | .COMMA => lexeme s t = [',']
  | .SEMICOLON => lexeme s t = [';']
  | .COLON => lexeme s t = [':']
  | .LPAREN => lexeme s t = ['(']
  | .RPAREN => lexeme s t = [')']
  | .LBRACE => lexeme s t = ['\x7b']
  | .RBRACE => lexeme s t = ['\x7d']
  | .LBRACKET => lexeme s t = ['[']
  | .RBRACKET => lexeme s t = [']']
  | .EQ => True
  | .NotEq => True
  | .EOF => True

/-! Basic facts about the character-versus-byte view for single-byte
(ASCII) inputs, and the cursor invariant maintained by read_char. -/


lemma charBytes_eq_one {c : Char} (h : c.toNat < 128) : charBytes c = 1 := by
  simp [charBytes, h]

lemma byteLen_ascii_aux : ∀ (s : List Char), allAscii s → byteLen s = s.length
  | [], _ => rfl
  | c :: t, hA => by
    have hc : c.toNat < 128 := hA c (List.mem_cons_self c t)
    have ht : byteLen t = t.length :=
      byteLen_ascii_aux t (fun x hx => hA x (List.mem_cons_of_mem c hx))
    simp only [byteLen, List.map_cons, List.sum_cons, List.length_cons] at *
    rw [charBytes_eq_one hc, ht]
    omega

lemma byteLen_ascii {s : List Char} (hA : allAscii s) : byteLen s = s.length :=
  byteLen_ascii_aux s hA

lemma one_le_charBytes (c : Char) : 1 ≤ charBytes c := by
  unfold charBytes
  split
  · exact Nat.le_refl 1
  · split
    · omega
    · split <;> omega

lemma length_le_byteLen (s : List Char) : s.length ≤ byteLen s := by
  induction s with
  | nil => simp [byteLen]
  | cons c t ih =>
    have := one_le_charBytes c
    simp [byteLen] at *
    omega

lemma chAt_of_le {s : List Char} {i : Nat} (h : s.length ≤ i) : chAt s i = Char.ofNat 0 := by
  unfold chAt
  have : ¬ i < s.length := by omega
  simp [this]

lemma chAt_lt {s : List Char} {i : Nat} (h : i < s.length) : chAt s i = s.get ⟨i, h⟩ := by
  simp [chAt, h]

lemma lt_of_chAt_ne {s : List Char} {i : Nat} (h : chAt s i ≠ Char.ofNat 0) : i < s.length := by
  by_contra hc
  exact h (chAt_of_le (by omega))

lemma getElem?_eq_chAt {s : List Char} {i : Nat} (h : i < s.length) :
    s[i]? = some (chAt s i) := by
  rw [List.getElem?_eq_getElem h, chAt_lt h]
  simp [List.get_eq_getElem]


lemma lexer_eta {s : List Char} {l : Lexer} (h : LexInv s l) :
    l = ⟨l.position, l.position + 1, chAt s l.position⟩ := by
  obtain ⟨h1, h2⟩ := h
  cases l
  simp_all

lemma read_char_ascii {s : List Char} (hA : allAscii s) (l : Lexer) :
    read_char s l = .ok ⟨l.read_position, l.read_position + 1, chAt s l.read_position⟩ := by
  unfold read_char
  rw [byteLen_ascii hA]
  by_cases h : s.length ≤ l.read_position
  · simp [h, chAt_of_le h]
  · have hlt : l.read_position < s.length := by omega
    simp [h, getElem?_eq_chAt hlt]

lemma peek_char_ascii {s : List Char} (hA : allAscii s) (l : Lexer) :
    peek_char s l = .ok (chAt s l.read_position) := by
  unfold peek_char
  rw [byteLen_ascii hA]
  by_cases h : s.length ≤ l.read_position
  · simp [h, chAt_of_le h]
  · have hlt : l.read_position < s.length := by omega
    simp [h, getElem?_eq_chAt hlt]

lemma lexer_new_ascii {s : List Char} (hA : allAscii s) :
    lexer_new s = .ok ⟨0, 1, chAt s 0⟩ := by
  unfold lexer_new
  rw [read_char_ascii hA]

/-! Generic facts about takeWhile and drop used to characterize the
scanning loops. -/

lemma takeWhile_length_le (p : Char → Bool) : ∀ (xs : List Char),
    (xs.takeWhile p).length ≤ xs.length
  | [] => by simp
  | c :: t => by
    cases hp : p c with
    | true =>
      simp only [List.takeWhile_cons, hp, if_true, List.length_cons]
      exact Nat.succ_le_succ (takeWhile_length_le p t)
    | false =>
      simp [List.takeWhile_cons, hp]

lemma take_takeWhile (p : Char → Bool) : ∀ (xs : List Char),
    xs.take (xs.takeWhile p).length = xs.takeWhile p
  | [] => by simp
  | c :: t => by
    cases hp : p c with
    | true =>
      simp only [List.takeWhile_cons, hp, if_true, List.length_cons, List.take_succ_cons]
      rw [take_takeWhile p t]
    | false =>
      simp [List.takeWhile_cons, hp]

lemma takeWhile_stop (p : Char → Bool) : ∀ (xs : List Char)
    (h : (xs.takeWhile p).length < xs.length),
    p (xs.get ⟨(xs.takeWhile p).length, h⟩) = false
  | [], h => by simp at h
  | c :: t, h => by
    cases hp : p c with
    | true =>
      have hlen : ((c :: t).takeWhile p).length = (t.takeWhile p).length + 1 := by
        simp [List.takeWhile_cons, hp]
      have ht : (t.takeWhile p).length < t.length := by
        have hh := h
        simp only [hlen, List.length_cons] at hh
        omega
      have hrec := takeWhile_stop p t ht
      simp only [List.get_eq_getElem] at hrec ⊢
      simp only [hlen, List.getElem_cons_succ]
      exact hrec
    | false =>
      have hlen : ((c :: t).takeWhile p).length = 0 := by
        simp [List.takeWhile_cons, hp]
      simp only [List.get_eq_getElem, hlen, List.getElem_cons_zero]
      exact hp

lemma drop_chAt_cons {s : List Char} {p : Nat} (h : p < s.length) :
    s.drop p = chAt s p :: s.drop (p + 1) := by
  rw [List.drop_eq_getElem_cons h, chAt_lt h, List.get_eq_getElem]

lemma chAt_drop_get {s : List Char} {a k : Nat} (h : a + k < s.length) :
    chAt s (a + k) = (s.drop a).get ⟨k, by rw [List.length_drop]; omega⟩ := by
  rw [chAt_lt h]
  simp only [List.get_eq_getElem, List.getElem_drop]


lemma skip_whitespace_ascii {s : List Char} (hA : allAscii s) :
    ∀ (fuel : Nat) (l : Lexer), LexInv s l → s.length < l.position + fuel + 1 →
      ∃ l1, skip_whitespace s fuel l = .ok l1 ∧ LexInv s l1 ∧
        is_ascii_whitespace l1.ch = false ∧ l.position ≤ l1.position
  | 0, l, hinv, hb => by
    have hle : s.length ≤ l.position := by omega
    have hws : is_ascii_whitespace l.ch = false := by
      rw [hinv.2, chAt_of_le hle]
      decide
    exact ⟨l, by simp [skip_whitespace, hws], hinv, hws, Nat.le_refl _⟩
  | fuel + 1, l, hinv, hb => by
    cases hws : is_ascii_whitespace l.ch with
    | false =>
      exact ⟨l, by simp [skip_whitespace, hws], hinv, hws, Nat.le_refl _⟩
    | true =>
      have hne : l.ch ≠ Char.ofNat 0 := by
        intro hc
        rw [hc] at hws
        exact absurd hws (by decide)
      have hlt : l.position < s.length := lt_of_chAt_ne (by rw [← hinv.2]; exact hne)
      obtain ⟨l1, h1, hinv1, hws1, hle1⟩ :=
        skip_whitespace_ascii hA fuel
          ⟨l.position + 1, l.position + 1 + 1, chAt s (l.position + 1)⟩
          ⟨rfl, rfl⟩ (show s.length < l.position + 1 + fuel + 1 by omega)
      have hle1' : l.position + 1 ≤ l1.position := hle1
      refine ⟨l1, ?_, hinv1, hws1, by omega⟩
      simp only [skip_whitespace, hws, if_true]
      rw [read_char_ascii hA, hinv.1]
      simpa [Res.bind] using h1

lemma ident_loop_ascii {s : List Char} (hA : allAscii s) :
    ∀ (fuel : Nat) (l : Lexer), LexInv s l → s.length < l.position + fuel + 1 →
      ident_loop s fuel l =
        .ok ⟨l.position + ((s.drop l.position).takeWhile is_letter).length,
             l.position + ((s.drop l.position).takeWhile is_letter).length + 1,
             chAt s (l.position + ((s.drop l.position).takeWhile is_letter).length)⟩
  | fuel, l, hinv, hb => by
    cases hl : is_letter l.ch with
    | false =>
      have htw : (s.drop l.position).takeWhile is_letter = [] := by
        by_cases hp : l.position < s.length
        · rw [drop_chAt_cons hp, List.takeWhile_cons, ← hinv.2, hl]
          simp
        · rw [List.drop_eq_nil_of_le (by omega)]
          rfl
      have hres : ident_loop s fuel l = .ok l := by
        cases fuel with
        | zero => simp [ident_loop, hl]
        | succ fuel => simp [ident_loop, hl]
      rw [hres, htw]
      simp only [List.length_nil, Nat.add_zero]
      exact congrArg Res.ok (lexer_eta hinv)
    | true =>
      have hne : l.ch ≠ Char.ofNat 0 := by
        intro hc
        rw [hc] at hl
        exact absurd hl (by decide)
      have hplt : l.position < s.length := lt_of_chAt_ne (by rw [← hinv.2]; exact hne)
      cases fuel with
      | zero => omega
      | succ fuel =>
        have htw : (s.drop l.position).takeWhile is_letter =
            chAt s l.position :: (s.drop (l.position + 1)).takeWhile is_letter := by
          rw [drop_chAt_cons hplt, List.takeWhile_cons,
            show is_letter (chAt s l.position) = true from hinv.2 ▸ hl]
          simp
        have hrec := ident_loop_ascii hA fuel
          ⟨l.position + 1, l.position + 1 + 1, chAt s (l.position + 1)⟩
          ⟨rfl, rfl⟩ (show s.length < l.position + 1 + fuel + 1 by omega)
        simp only [ident_loop, hl, if_true]
        rw [read_char_ascii hA, hinv.1]
        simp only [Res.bind]
        rw [htw, List.length_cons]
        have h2 : l.position + (((s.drop (l.position + 1)).takeWhile is_letter).length + 1) =
            l.position + 1 + ((s.drop (l.position + 1)).takeWhile is_letter).length := by
          omega
        rw [h2]
        exact hrec

lemma digit_loop_ascii {s : List Char} (hA : allAscii s) :
    ∀ (fuel : Nat) (l : Lexer), LexInv s l → s.length < l.position + fuel + 1 →
      digit_loop s fuel l =
        .ok ⟨l.position + ((s.drop l.position).takeWhile is_digit).length,
             l.position + ((s.drop l.position).takeWhile is_digit).length + 1,
             chAt s (l.position + ((s.drop l.position).takeWhile is_digit).length)⟩
  | fuel, l, hinv, hb => by
    cases hl : is_digit l.ch with
    | false =>
      have htw : (s.drop l.position).takeWhile is_digit = [] := by
        by_cases hp : l.position < s.length
        · rw [drop_chAt_cons hp, List.takeWhile_cons, ← hinv.2, hl]
          simp
        · rw [List.drop_eq_nil_of_le (by omega)]
          rfl
      have hres : digit_loop s fuel l = .ok l := by
        cases fuel with
        | zero => simp [digit_loop, hl]
        | succ fuel => simp [digit_loop, hl]
      rw [hres, htw]
      simp only [List.length_nil, Nat.add_zero]
      exact congrArg Res.ok (lexer_eta hinv)
    | true =>
      have hne : l.ch ≠ Char.ofNat 0 := by
        intro hc
        rw [hc] at hl
        exact absurd hl (by decide)
      have hplt : l.position < s.length := lt_of_chAt_ne (by rw [← hinv.2]; exact hne)
      cases fuel with
      | zero => omega
      | succ fuel =>
        have htw : (s.drop l.position).takeWhile is_digit =
            chAt s l.position :: (s.drop (l.position + 1)).takeWhile is_digit := by
          rw [drop_chAt_cons hplt, List.takeWhile_cons,
            show is_digit (chAt s l.position) = true from hinv.2 ▸ hl]
          simp
        have hrec := digit_loop_ascii hA fuel
          ⟨l.position + 1, l.position + 1 + 1, chAt s (l.position + 1)⟩
          ⟨rfl, rfl⟩ (show s.length < l.position + 1 + fuel + 1 by omega)
        simp only [digit_loop, hl, if_true]
        rw [read_char_ascii hA, hinv.1]
        simp only [Res.bind]
        rw [htw, List.length_cons]
        have h2 : l.position + (((s.drop (l.position + 1)).takeWhile is_digit).length + 1) =
            l.position + 1 + ((s.drop (l.position + 1)).takeWhile is_digit).length := by
          omega
        rw [h2]
        exact hrec

lemma string_loop_ascii {s : List Char} (hA : allAscii s) :
    ∀ (fuel : Nat) (l : Lexer), LexInv s l → l.position < s.length →
      s.length < l.position + fuel →
      string_loop s fuel l =
        .ok ⟨l.position + 1 + ((s.drop (l.position + 1)).takeWhile string_content).length,
             l.position + 1 + ((s.drop (l.position + 1)).takeWhile string_content).length + 1,
             chAt s (l.position + 1 + ((s.drop (l.position + 1)).takeWhile string_content).length)⟩
  | 0, l, hinv, hlt, hb => absurd hb (by omega)
  | fuel + 1, l, hinv, hlt, hb => by
    simp only [string_loop]
    rw [read_char_ascii hA, hinv.1]
    simp only [Res.bind]
    by_cases hstop : chAt s (l.position + 1) = '\x22' ∨ chAt s (l.position + 1) = Char.ofNat 0
    · have htw : (s.drop (l.position + 1)).takeWhile string_content = [] := by
        by_cases hp : l.position + 1 < s.length
        · rw [drop_chAt_cons hp, List.takeWhile_cons,
            show string_content (chAt s (l.position + 1)) = false from by
              simp [string_content, hstop]]
          simp
        · rw [List.drop_eq_nil_of_le (by omega)]
          rfl
      rw [if_pos hstop, htw]
      simp
    · have hcont : string_content (chAt s (l.position + 1)) = true := by
        simp only [string_content]
        rw [if_neg hstop]
      have hne : chAt s (l.position + 1) ≠ Char.ofNat 0 := fun hc => hstop (Or.inr hc)
      have hp1 : l.position + 1 < s.length := lt_of_chAt_ne hne
      have htw : (s.drop (l.position + 1)).takeWhile string_content =
          chAt s (l.position + 1) :: (s.drop (l.position + 1 + 1)).takeWhile string_content := by
        rw [drop_chAt_cons hp1, List.takeWhile_cons, hcont]
        simp
      rw [if_neg hstop]
      have hrec := string_loop_ascii hA fuel
        ⟨l.position + 1, l.position + 1 + 1, chAt s (l.position + 1)⟩
        ⟨rfl, rfl⟩ hp1 (show s.length < l.position + 1 + fuel by omega)
      rw [htw, List.length_cons]
      have h2 : l.position + 1 + (((s.drop (l.position + 1 + 1)).takeWhile string_content).length + 1) =
          l.position + 1 + 1 + ((s.drop (l.position + 1 + 1)).takeWhile string_content).length := by
        omega
      rw [h2]
      exact hrec

/-! Byte slicing on single-byte inputs, and the parse of a digit run. -/

lemma boundaryIdx_ascii : ∀ (s : List Char), allAscii s → ∀ (n : Nat), n ≤ s.length →
    boundaryIdx s n = some n
  | s, _, 0, _ => by cases s <;> rfl
  | [], _, n + 1, h => by simp at h
  | c :: cs, hA, n + 1, h => by
    have hc : charBytes c = 1 := charBytes_eq_one (hA c (List.mem_cons_self c cs))
    have hlen : n ≤ cs.length := by
      simp only [List.length_cons] at h
      omega
    have hrec := boundaryIdx_ascii cs (fun x hx => hA x (List.mem_cons_of_mem c hx)) n hlen
    simp only [boundaryIdx, hc]
    rw [if_pos (by omega)]
    simp [hrec]

lemma sliceStr_ascii {s : List Char} (hA : allAscii s) {a b : Nat}
    (hab : a ≤ b) (hb : b ≤ s.length) :
    sliceStr s a b = .ok ((s.drop a).take (b - a)) := by
  unfold sliceStr
  rw [boundaryIdx_ascii s hA a (by omega), boundaryIdx_ascii s hA b hb]
  simp [hab]

lemma parse_i64_ok {cs : List Char} (h1 : cs ≠ []) (h2 : cs.all is_digit = true)
    (h3 : natOfDigits cs ≤ 9223372036854775807) :
    parse_i64 cs = .ok (Int.ofNat (natOfDigits cs)) := by
  unfold parse_i64
  rw [if_pos ⟨h1, h2, h3⟩]

lemma parse_i64_overflow {cs : List Char} (h : 9223372036854775807 < natOfDigits cs) :
    parse_i64 cs = .err := by
  unfold parse_i64
  rw [if_neg]
  intro hc
  omega

/-! The branches of next_token_core on single-byte inputs. -/

lemma finish_simple_ascii {s : List Char} (hA : allAscii s) {l : Lexer}
    (hinv : LexInv s l) (k : TokenKind) :
    finish_simple s l k =
      .ok ({ span := { start := l.position, stop := l.position + 1 }, kind := k },
        ⟨l.position + 1, l.position + 1 + 1, chAt s (l.position + 1)⟩) := by
  unfold finish_simple
  rw [read_char_ascii hA, hinv.1]
  simp [Res.bind]

lemma opKind_none_spec (c : Char) (h : opKind c = none) :
    c ≠ ';' ∧ c ≠ '(' ∧ c ≠ ')' ∧ c ≠ ',' ∧ c ≠ '+' ∧ c ≠ '-' ∧ c ≠ '*' ∧ c ≠ '/' ∧
    c ≠ '<' ∧ c ≠ '>' ∧ c ≠ '\x7b' ∧ c ≠ '\x7d' ∧ c ≠ '[' ∧ c ≠ ':' ∧ c ≠ ']' := by
  refine ⟨?_, ?_, ?_, ?_, ?_, ?_, ?_, ?_, ?_, ?_, ?_, ?_, ?_, ?_, ?_⟩ <;>
    (intro hc; subst hc; exact absurd h (by decide))

lemma letter_ne_all (c : Char) (h : is_letter c = true) :
    c ≠ '=' ∧ c ≠ ';' ∧ c ≠ '(' ∧ c ≠ ')' ∧ c ≠ ',' ∧ c ≠ '+' ∧ c ≠ '-' ∧ c ≠ '!' ∧
    c ≠ '*' ∧ c ≠ '/' ∧ c ≠ '<' ∧ c ≠ '>' ∧ c ≠ '\x7b' ∧ c ≠ '\x7d' ∧ c ≠ '[' ∧
    c ≠ ':' ∧ c ≠ ']' ∧ c ≠ Char.ofNat 0 ∧ c ≠ '\x22' := by
  refine ⟨?_, ?_, ?_, ?_, ?_, ?_, ?_, ?_, ?_, ?_, ?_, ?_, ?_, ?_, ?_, ?_, ?_, ?_, ?_⟩ <;>
    (intro hc; subst hc; exact absurd h (by decide))

lemma digit_ne_all (c : Char) (h : is_digit c = true) :
    c ≠ '=' ∧ c ≠ ';' ∧ c ≠ '(' ∧ c ≠ ')' ∧ c ≠ ',' ∧ c ≠ '+' ∧ c ≠ '-' ∧ c ≠ '!' ∧
    c ≠ '*' ∧ c ≠ '/' ∧ c ≠ '<' ∧ c ≠ '>' ∧ c ≠ '\x7b' ∧ c ≠ '\x7d' ∧ c ≠ '[' ∧
    c ≠ ':' ∧ c ≠ ']' ∧ c ≠ Char.ofNat 0 ∧ c ≠ '\x22' ∧ is_letter c = false := by
  refine ⟨?_, ?_, ?_, ?_, ?_, ?_, ?_, ?_, ?_, ?_, ?_, ?_, ?_, ?_, ?_, ?_, ?_, ?_, ?_, ?_⟩
  case _ : is_letter c = false =>
    cases hl : is_letter c with
    | false => rfl
    | true =>
      exfalso
      simp only [is_letter, is_digit, Bool.or_eq_true, Bool.and_eq_true,
        decide_eq_true_eq] at hl h
      omega
  all_goals (intro hc; subst hc; exact absurd h (by decide))

lemma core_op {s : List Char} (hA : allAscii s) {l : Lexer} (hinv : LexInv s l)
    {k : TokenKind} (hop : opKind l.ch = some k) (fuel : Nat) :
    next_token_core s fuel l =
      .ok ({ span := { start := l.position, stop := l.position + 1 }, kind := k },
        ⟨l.position + 1, l.position + 1 + 1, chAt s (l.position + 1)⟩) := by
  by_cases h1 : l.ch = ';'
  · simp [opKind, h1] at hop
    subst hop
    rw [show next_token_core s fuel l = finish_simple s l .SEMICOLON from by
      simp [next_token_core, h1]]
    exact finish_simple_ascii hA hinv _
  by_cases h2 : l.ch = '('
  · simp [opKind, h2] at hop
    subst hop
    rw [show next_token_core s fuel l = finish_simple s l .LPAREN from by
      simp [next_token_core, h2]]
    exact finish_simple_ascii hA hinv _
  by_cases h3 : l.ch = ')'
  · simp [opKind, h3] at hop
    subst hop
    rw [show next_token_core s fuel l = finish_simple s l .RPAREN from by
      simp [next_token_core, h3]]
    exact finish_simple_ascii hA hinv _
  by_cases h4 : l.ch = ','
  · simp [opKind, h4] at hop
    subst hop
    rw [show next_token_core s fuel l = finish_simple s l .COMMA from by
      simp [next_token_core, h4]]
    exact finish_simple_ascii hA hinv _
  by_cases h5 : l.ch = '+'
  · simp [opKind, h5] at hop
    subst hop
    rw [show next_token_core s fuel l = finish_simple s l .PLUS from by
      simp [next_token_core, h5]]
    exact finish_simple_ascii hA hinv _
  by_cases h6 : l.ch = '-'
  · simp [opKind, h6] at hop
    subst hop
    rw [show next_token_core s fuel l = finish_simple s l .MINUS from by
      simp [next_token_core, h6]]
    exact finish_simple_ascii hA hinv _
  by_cases h7 : l.ch = '*'
  · simp [opKind, h7] at hop
    subst hop
    rw [show next_token_core s fuel l = finish_simple s l .ASTERISK from by
      simp [next_token_core, h7]]
    exact finish_simple_ascii hA hinv _
  by_cases h8 : l.ch = '/'
  · simp [opKind, h8] at hop
    subst hop
    rw [show next_token_core s fuel l = finish_simple s l .SLASH from by
      simp [next_token_core, h8]]
    exact finish_simple_ascii hA hinv _
  by_cases h9 : l.ch = '<'
  · simp [opKind, h9] at hop
    subst hop
    rw [show next_token_core s fuel l = finish_simple s l .LT from by
      simp [next_token_core, h9]]
    exact finish_simple_ascii hA hinv _
  by_cases h10 : l.ch = '>'
  · simp [opKind, h10] at hop
    subst hop
    rw [show next_token_core s fuel l = finish_simple s l .GT from by
      simp [next_token_core, h10]]
    exact finish_simple_ascii hA hinv _
  by_cases h11 : l.ch = '\x7b'
  · simp [opKind, h11] at hop
    subst hop
    rw [show next_token_core s fuel l = finish_simple s l .LBRACE from by
      simp [next_token_core, h11]]
    exact finish_simple_ascii hA hinv _
  by_cases h12 : l.ch = '\x7d'
  · simp [opKind, h12] at hop
    subst hop
    rw [show next_token_core s fuel l = finish_simple s l .RBRACE from by
      simp [next_token_core, h12]]
    exact finish_simple_ascii hA hinv _
  by_cases h13 : l.ch = '['
  · simp [opKind, h13] at hop
    subst hop
    rw [show next_token_core s fuel l = finish_simple s l .LBRACKET from by
      simp [next_token_core, h13]]
    exact finish_simple_ascii hA hinv _
  by_cases h14 : l.ch = ':'
  · simp [opKind, h14] at hop
    subst hop
    rw [show next_token_core s fuel l = finish_simple s l .COLON from by
      simp [next_token_core, h14]]
    exact finish_simple_ascii hA hinv _
  by_cases h15 : l.ch = ']'
  · simp [opKind, h15] at hop
    subst hop
    rw [show next_token_core s fuel l = finish_simple s l .RBRACKET from by
      simp [next_token_core, h15]]
    exact finish_simple_ascii hA hinv _
  simp [opKind, h1, h2, h3, h4, h5, h6, h7, h8, h9, h10, h11, h12, h13, h14, h15] at hop

lemma core_assign {s : List Char} (hA : allAscii s) {l : Lexer} (hinv : LexInv s l)
    (heq : l.ch = '=') (hpeek : chAt s (l.position + 1) ≠ '=') (fuel : Nat) :
    next_token_core s fuel l =
      .ok ({ span := { start := l.position, stop := l.position + 1 }, kind := .ASSIGN },
        ⟨l.position + 1, l.position + 1 + 1, chAt s (l.position + 1)⟩) := by
  have hp := peek_char_ascii hA l
  rw [hinv.1] at hp
  rw [show next_token_core s fuel l = finish_simple s l .ASSIGN from by
    simp [next_token_core, heq, hp, Res.bind, if_neg hpeek]]
  exact finish_simple_ascii hA hinv _

lemma core_eq {s : List Char} (hA : allAscii s) {l : Lexer} (hinv : LexInv s l)
    (heq : l.ch = '=') (hpeek : chAt s (l.position + 1) = '=') (fuel : Nat) :
    next_token_core s fuel l =
      .ok ({ span := { start := l.position + 1, stop := l.position + 1 + 1 }, kind := .EQ },
        ⟨l.position + 1 + 1, l.position + 1 + 1 + 1, chAt s (l.position + 1 + 1)⟩) := by
  have hp := peek_char_ascii hA l
  rw [hinv.1] at hp
  have hchain : next_token_core s fuel l =
      finish_simple s ⟨l.position + 1, l.position + 1 + 1, chAt s (l.position + 1)⟩ .EQ := by
    simp [next_token_core, heq, hp, Res.bind, hpeek, read_char_ascii hA, hinv.1]
  rw [hchain, finish_simple_ascii hA ⟨rfl, rfl⟩ .EQ]

lemma core_bang {s : List Char} (hA : allAscii s) {l : Lexer} (hinv : LexInv s l)
    (heq : l.ch = '!') (hpeek : chAt s (l.position + 1) ≠ '=') (fuel : Nat) :
    next_token_core s fuel l =
      .ok ({ span := { start := l.position, stop := l.position + 1 }, kind := .BANG },
        ⟨l.position + 1, l.position + 1 + 1, chAt s (l.position + 1)⟩) := by
  have hp := peek_char_ascii hA l
  rw [hinv.1] at hp
  rw [show next_token_core s fuel l = finish_simple s l .BANG from by
    simp [next_token_core, heq, hp, Res.bind, if_neg hpeek]]
  exact finish_simple_ascii hA hinv _

lemma core_noteq {s : List Char} (hA : allAscii s) {l : Lexer} (hinv : LexInv s l)
    (heq : l.ch = '!') (hpeek : chAt s (l.position + 1) = '=') (fuel : Nat) :
    next_token_core s fuel l =
      .ok ({ span := { start := l.position + 1, stop := l.position + 1 + 1 }, kind := .NotEq },
        ⟨l.position + 1 + 1, l.position + 1 + 1 + 1, chAt s (l.position + 1 + 1)⟩) := by
  have hp := peek_char_ascii hA l
  rw [hinv.1] at hp
  have hchain : next_token_core s fuel l =
      finish_simple s ⟨l.position + 1, l.position + 1 + 1, chAt s (l.position + 1)⟩ .NotEq := by
    simp [next_token_core, heq, hp, Res.bind, hpeek, read_char_ascii hA, hinv.1]
  rw [hchain, finish_simple_ascii hA ⟨rfl, rfl⟩ .NotEq]

lemma core_eof {s : List Char} (hA : allAscii s) {l : Lexer} (hinv : LexInv s l)
    (h0 : l.ch = Char.ofNat 0) (fuel : Nat) :
    next_token_core s fuel l =
      .ok ({ span := { start := l.position, stop := l.position + 1 }, kind := .EOF },
        ⟨l.position + 1, l.position + 1 + 1, chAt s (l.position + 1)⟩) := by
  rw [show next_token_core s fuel l = finish_simple s l .EOF from by simp [next_token_core, h0]]
  exact finish_simple_ascii hA hinv _

lemma core_illegal {s : List Char} (hA : allAscii s) {l : Lexer} (hinv : LexInv s l)
    (hop : opKind l.ch = none) (hne : l.ch ≠ '=') (hnb : l.ch ≠ '!')
    (h0 : l.ch ≠ Char.ofNat 0) (hq : l.ch ≠ '\x22')
    (hl : is_letter l.ch = false) (hd : is_digit l.ch = false) (fuel : Nat) :
    next_token_core s fuel l =
      .ok ({ span := { start := l.position, stop := l.position + 1 }, kind := .ILLEGAL },
        ⟨l.position + 1, l.position + 1 + 1, chAt s (l.position + 1)⟩) := by
  obtain ⟨n1, n2, n3, n4, n5, n6, n7, n8, n9, n10, n11, n12, n13, n14, n15⟩ :=
    opKind_none_spec l.ch hop
  rw [show next_token_core s fuel l = finish_simple s l .ILLEGAL from by
    simp only [next_token_core, if_neg hne, if_neg n1, if_neg n2, if_neg n3, if_neg n4,
      if_neg n5, if_neg n6, if_neg hnb, if_neg n7, if_neg n8, if_neg n9, if_neg n10,
      if_neg n11, if_neg n12, if_neg n13, if_neg n14, if_neg n15, if_neg h0, if_neg hq,
      hl, hd]
    simp]
  exact finish_simple_ascii hA hinv _

lemma core_ident {s : List Char} (hA : allAscii s) {l : Lexer} (hinv : LexInv s l)
    (hl : is_letter l.ch = true) {fuel : Nat} (hfuel : s.length < l.position + fuel + 1) :
    next_token_core s fuel l =
      .ok ({ span := { start := l.position, stop := l.position + (letterRunAt s l.position).length },
             kind := lookup_identifier (letterRunAt s l.position) },
        ⟨l.position + (letterRunAt s l.position).length,
         l.position + (letterRunAt s l.position).length + 1,
         chAt s (l.position + (letterRunAt s l.position).length)⟩) := by
  obtain ⟨m1, m2, m3, m4, m5, m6, m7, m8, m9, m10, m11, m12, m13, m14, m15, m16, m17, m18, m19⟩ :=
    letter_ne_all l.ch hl
  have hplt : l.position < s.length := lt_of_chAt_ne (by rw [← hinv.2]; exact m18)
  have hloop := ident_loop_ascii hA fuel l hinv hfuel
  have hKle : ((s.drop l.position).takeWhile is_letter).length ≤ s.length - l.position := by
    have := takeWhile_length_le is_letter (s.drop l.position)
    rw [List.length_drop] at this
    omega
  have hslice := sliceStr_ascii hA
    (a := l.position) (b := l.position + ((s.drop l.position).takeWhile is_letter).length)
    (by omega) (by omega)
  have hchain : next_token_core s fuel l =
      (read_identifier s fuel l).bind fun r =>
        .ok ({ span := { start := r.1, stop := r.2.1 }, kind := lookup_identifier r.2.2.1 },
          r.2.2.2) := by
    simp only [next_token_core, if_neg m1, if_neg m2, if_neg m3, if_neg m4, if_neg m5,
      if_neg m6, if_neg m7, if_neg m8, if_neg m9, if_neg m10, if_neg m11, if_neg m12,
      if_neg m13, if_neg m14, if_neg m15, if_neg m16, if_neg m17, if_neg m18, if_neg m19,
      hl, if_true]
  rw [hchain]
  unfold read_identifier
  rw [hloop]
  simp only [Res.bind, letterRunAt]
  rw [hslice, Nat.add_sub_cancel_left, take_takeWhile]

lemma core_digit_aux {s : List Char} (hA : allAscii s) {l : Lexer} (hinv : LexInv s l)
    (hd : is_digit l.ch = true) {fuel : Nat} (hfuel : s.length < l.position + fuel + 1) :
    next_token_core s fuel l =
      (parse_i64 (digitRunAt s l.position)).bind fun v =>
        .ok ({ span := { start := l.position, stop := l.position + (digitRunAt s l.position).length },
               kind := .INT v },
          ⟨l.position + (digitRunAt s l.position).length,
           l.position + (digitRunAt s l.position).length + 1,
           chAt s (l.position + (digitRunAt s l.position).length)⟩) := by
  obtain ⟨m1, m2, m3, m4, m5, m6, m7, m8, m9, m10, m11, m12, m13, m14, m15, m16, m17, m18, m19, m20⟩ :=
    digit_ne_all l.ch hd
  have hplt : l.position < s.length := lt_of_chAt_ne (by rw [← hinv.2]; exact m18)
  have hloop := digit_loop_ascii hA fuel l hinv hfuel
  have hKle : ((s.drop l.position).takeWhile is_digit).length ≤ s.length - l.position := by
    have := takeWhile_length_le is_digit (s.drop l.position)
    rw [List.length_drop] at this
    omega
  have hslice := sliceStr_ascii hA
    (a := l.position) (b := l.position + ((s.drop l.position).takeWhile is_digit).length)
    (by omega) (by omega)
  have hchain : next_token_core s fuel l =
      (read_number s fuel l).bind fun r =>
        .ok ({ span := { start := r.1, stop := r.2.1 }, kind := .INT r.2.2.1 },
          r.2.2.2) := by
    simp only [next_token_core, if_neg m1, if_neg m2, if_neg m3, if_neg m4, if_neg m5,
      if_neg m6, if_neg m7, if_neg m8, if_neg m9, if_neg m10, if_neg m11, if_neg m12,
      if_neg m13, if_neg m14, if_neg m15, if_neg m16, if_neg m17, if_neg m18, if_neg m19,
      m20, Bool.false_eq_true, if_false, hd, if_true]
  rw [hchain]
  unfold read_number
  rw [hloop]
  simp only [Res.bind, digitRunAt]
  rw [hslice, Nat.add_sub_cancel_left, take_takeWhile]
  cases hp : parse_i64 ((s.drop l.position).takeWhile is_digit) <;> simp [Res.bind, hp]

lemma digitRunAt_all (s : List Char) (p : Nat) :
    (digitRunAt s p).all is_digit = true := by
  rw [List.all_eq_true]
  intro x hx
  exact List.mem_takeWhile_imp hx

lemma digitRunAt_ne_nil {s : List Char} {p : Nat} (hp : p < s.length)
    (hd : is_digit (chAt s p) = true) : digitRunAt s p ≠ [] := by
  unfold digitRunAt
  rw [drop_chAt_cons hp, List.takeWhile_cons, hd]
  simp

lemma core_digit_ok {s : List Char} (hA : allAscii s) {l : Lexer} (hinv : LexInv s l)
    (hd : is_digit l.ch = true) {fuel : Nat} (hfuel : s.length < l.position + fuel + 1)
    (hfit : natOfDigits (digitRunAt s l.position) ≤ 9223372036854775807) :
    next_token_core s fuel l =
      .ok ({ span := { start := l.position, stop := l.position + (digitRunAt s l.position).length },
             kind := .INT (Int.ofNat (natOfDigits (digitRunAt s l.position))) },
        ⟨l.position + (digitRunAt s l.position).length,
         l.position + (digitRunAt s l.position).length + 1,
         chAt s (l.position + (digitRunAt s l.position).length)⟩) := by
  have hplt : l.position < s.length := by
    apply lt_of_chAt_ne
    rw [← hinv.2]
    intro hc
    rw [hc] at hd
    exact absurd hd (by decide)
  have hne : digitRunAt s l.position ≠ [] := by
    apply digitRunAt_ne_nil hplt
    rw [← hinv.2]
    exact hd
  rw [core_digit_aux hA hinv hd hfuel,
    parse_i64_ok hne (digitRunAt_all s l.position) hfit]
  rfl

lemma core_digit_overflow {s : List Char} (hA : allAscii s) {l : Lexer} (hinv : LexInv s l)
    (hd : is_digit l.ch = true) {fuel : Nat} (hfuel : s.length < l.position + fuel + 1)
    (hover : 9223372036854775807 < natOfDigits (digitRunAt s l.position)) :
    next_token_core s fuel l = .err := by
  rw [core_digit_aux hA hinv hd hfuel, parse_i64_overflow hover]
  rfl

lemma string_content_eq_false {c : Char} :
    string_content c = false ↔ (c = '\x22' ∨ c = Char.ofNat 0) := by
  unfold string_content
  split <;> simp_all

lemma core_string {s : List Char} (hA : allAscii s) {l : Lexer} (hinv : LexInv s l)
    (hq : l.ch = '\x22') {fuel : Nat} (hfuel : s.length < l.position + fuel) :
    (chAt s (strEnd s l.position) = '\x22' ∧
      next_token_core s fuel l =
        .ok ({ span := { start := l.position, stop := strEnd s l.position + 1 },
               kind := .STRING (strRun s l.position) },
          ⟨strEnd s l.position + 1, strEnd s l.position + 1 + 1,
           chAt s (strEnd s l.position + 1)⟩)) ∨
    (chAt s (strEnd s l.position) = Char.ofNat 0 ∧
      next_token_core s fuel l =
        .ok ({ span := { start := l.position, stop := strEnd s l.position },
               kind := .STRING (strRun s l.position) },
          ⟨strEnd s l.position, strEnd s l.position + 1, chAt s (strEnd s l.position)⟩)) := by
  have hplt : l.position < s.length := by
    apply lt_of_chAt_ne
    rw [← hinv.2, hq]
    decide
  have hloop := string_loop_ascii hA fuel l hinv hplt hfuel
  have hKle : ((s.drop (l.position + 1)).takeWhile string_content).length ≤
      s.length - (l.position + 1) := by
    have := takeWhile_length_le string_content (s.drop (l.position + 1))
    rw [List.length_drop] at this
    omega
  have hslice := sliceStr_ascii hA
    (a := l.position + 1)
    (b := l.position + 1 + ((s.drop (l.position + 1)).takeWhile string_content).length)
    (by omega) (by omega)
  have hstop : chAt s (l.position + 1 + ((s.drop (l.position + 1)).takeWhile string_content).length) = '\x22' ∨
      chAt s (l.position + 1 + ((s.drop (l.position + 1)).takeWhile string_content).length) = Char.ofNat 0 := by
    by_cases hPlen : l.position + 1 + ((s.drop (l.position + 1)).takeWhile string_content).length < s.length
    · have hKlt : ((s.drop (l.position + 1)).takeWhile string_content).length <
          (s.drop (l.position + 1)).length := by
        rw [List.length_drop]
        omega
      have hstopc := takeWhile_stop string_content (s.drop (l.position + 1)) hKlt
      rw [← chAt_drop_get hPlen] at hstopc
      exact string_content_eq_false.mp hstopc
    · exact Or.inr (chAt_of_le (by omega))
  have hchain : next_token_core s fuel l =
      (read_string s fuel l).bind fun r =>
        .ok ({ span := { start := r.1, stop := r.2.1 }, kind := .STRING r.2.2.1 }, r.2.2.2) := by
    simp [next_token_core, hq]
  simp only [strEnd, strRun]
  rw [hchain]
  unfold read_string
  rw [hloop]
  simp only [Res.bind]
  rw [hslice, Nat.add_sub_cancel_left, take_takeWhile]
  rcases hstop with hterm | hunterm
  · left
    refine ⟨hterm, ?_⟩
    rw [if_pos hterm, read_char_ascii hA]
  · right
    refine ⟨hunterm, ?_⟩
    rw [hunterm]
    rw [if_neg (by decide)]

lemma bool_eq_false {b : Bool} (h : ¬ b = true) : b = false := by
  cases b
  · rfl
  · exact absurd rfl h

lemma skip_whitespace_id {s : List Char} {l : Lexer} (fuel : Nat)
    (h : is_ascii_whitespace l.ch = false) :
    skip_whitespace s fuel l = .ok l := by
  cases fuel with
  | zero => simp [skip_whitespace, h]
  | succ fuel => simp [skip_whitespace, h]

lemma next_token_view {s : List Char} (hA : allAscii s) {l : Lexer} (hinv : LexInv s l) :
    ∃ l1, LexInv s l1 ∧ is_ascii_whitespace l1.ch = false ∧ l.position ≤ l1.position ∧
      next_token s l = next_token_core s (byteLen s + 2) l1 := by
  obtain ⟨l1, hskip, hinv1, hws1, hle1⟩ :=
    skip_whitespace_ascii hA (byteLen s + 2) l hinv
      (by rw [byteLen_ascii hA]; omega)
  exact ⟨l1, hinv1, hws1, hle1, by unfold next_token; rw [hskip]; rfl⟩

lemma next_token_total {s : List Char} (hA : allAscii s) (hO : noOverflow s)
    {l : Lexer} (hinv : LexInv s l) :
    ∃ t l2, next_token s l = .ok (t, l2) ∧ LexInv s l2 := by
  obtain ⟨l1, hinv1, hws1, hle1, hview⟩ := next_token_view hA hinv
  have hfuel : s.length < l1.position + (byteLen s + 2) := by
    rw [byteLen_ascii hA]
    omega
  have hfuel1 : s.length < l1.position + (byteLen s + 2) + 1 := by omega
  cases hk : opKind l1.ch with
  | some k =>
    exact ⟨_, _, by rw [hview]; exact core_op hA hinv1 hk _, ⟨rfl, rfl⟩⟩
  | none =>
    by_cases hEq : l1.ch = '='
    · by_cases hpk : chAt s (l1.position + 1) = '='
      · exact ⟨_, _, by rw [hview]; exact core_eq hA hinv1 hEq hpk _, ⟨rfl, rfl⟩⟩
      · exact ⟨_, _, by rw [hview]; exact core_assign hA hinv1 hEq hpk _, ⟨rfl, rfl⟩⟩
    by_cases hBg : l1.ch = '!'
    · by_cases hpk : chAt s (l1.position + 1) = '='
      · exact ⟨_, _, by rw [hview]; exact core_noteq hA hinv1 hBg hpk _, ⟨rfl, rfl⟩⟩
      · exact ⟨_, _, by rw [hview]; exact core_bang hA hinv1 hBg hpk _, ⟨rfl, rfl⟩⟩
    by_cases h0 : l1.ch = Char.ofNat 0
    · exact ⟨_, _, by rw [hview]; exact core_eof hA hinv1 h0 _, ⟨rfl, rfl⟩⟩
    by_cases hq : l1.ch = '\x22'
    · rcases core_string hA hinv1 hq hfuel with ⟨hterm, hrun⟩ | ⟨hunterm, hrun⟩
      · exact ⟨_, _, by rw [hview]; exact hrun, ⟨rfl, rfl⟩⟩
      · exact ⟨_, _, by rw [hview]; exact hrun, ⟨rfl, rfl⟩⟩
    by_cases hl : is_letter l1.ch = true
    · exact ⟨_, _, by rw [hview]; exact core_ident hA hinv1 hl hfuel1, ⟨rfl, rfl⟩⟩
    by_cases hd : is_digit l1.ch = true
    · have hplt : l1.position < s.length := by
        apply lt_of_chAt_ne
        rw [← hinv1.2]
        intro hc
        rw [hc] at hd
        exact absurd hd (by decide)
      have hstep := core_digit_ok hA hinv1 hd hfuel1 (hO l1.position hplt)
      rw [hview]
      exact ⟨_, _, hstep, ⟨rfl, rfl⟩⟩
    have hstep := core_illegal hA hinv1 hk hEq hBg h0 hq (bool_eq_false hl)
      (bool_eq_false hd) (byteLen s + 2)
    rw [hview]
    exact ⟨_, _, hstep, ⟨rfl, rfl⟩⟩

lemma run_n_total {s : List Char} (hA : allAscii s) (hO : noOverflow s) :
    ∀ (n : Nat) (l : Lexer), LexInv s l →
      ∃ l2, run_n s n l = .ok l2 ∧ LexInv s l2
  | 0, l, hinv => ⟨l, rfl, hinv⟩
  | n + 1, l, hinv => by
    obtain ⟨t, l1, hstep, hinv1⟩ := next_token_total hA hO hinv
    obtain ⟨l2, hrun, hinv2⟩ := run_n_total hA hO n l1 hinv1
    refine ⟨l2, ?_, hinv2⟩
    simp only [run_n]
    rw [hstep]
    simpa [Res.bind] using hrun

/-- C5: for every input of printable ASCII characters (plus ASCII
whitespace) with no digit run overflowing a 64-bit signed integer, Scanner
construction succeeds and every call to next_token returns a token: no
panic and no out-of-range access occurs at any call depth n. -/
theorem c5_safe {s : List Char} (hg : ∀ c ∈ s, goodChar c = true) (hO : noOverflow s) :
    ∃ l0, lexer_new s = .ok l0 ∧
      ∀ n : Nat, ∃ l1 t l2, run_n s n l0 = .ok l1 ∧ next_token s l1 = .ok (t, l2) := by
  have hA : allAscii s := by
    intro c hc
    have hgc := hg c hc
    simp only [goodChar, Bool.or_eq_true, Bool.and_eq_true, decide_eq_true_eq] at hgc
    omega
  refine ⟨⟨0, 1, chAt s 0⟩, lexer_new_ascii hA, fun n => ?_⟩
  obtain ⟨l1, hrun, hinv1⟩ := run_n_total hA hO n ⟨0, 1, chAt s 0⟩ ⟨rfl, rfl⟩
  obtain ⟨t, l2, hstep, _⟩ := next_token_total hA hO hinv1
  exact ⟨l1, t, l2, hrun, hstep⟩

/-- Witness for C5 at the input let x = 5 and call depth 5. -/
theorem c5_safe_witness :
    ∃ l0, lexer_new ['l', 'e', 't', ' ', 'x', ' ', '=', ' ', '5'] = .ok l0 ∧
      ∃ l1 t l2, run_n ['l', 'e', 't', ' ', 'x', ' ', '=', ' ', '5'] 5 l0 = .ok l1 ∧
        next_token ['l', 'e', 't', ' ', 'x', ' ', '=', ' ', '5'] l1 = .ok (t, l2) := by
  obtain ⟨l0, hnew, hall⟩ :=
    c5_safe (s := ['l', 'e', 't', ' ', 'x', ' ', '=', ' ', '5']) (by decide)
      (by unfold noOverflow; decide)
  exact ⟨l0, hnew, hall 5⟩

/-- C8: scanning the two-character input of two equals signs yields exactly
one Eq token before Eof, and scanning bang-equals yields exactly one NotEq
token before Eof, as shown by the collected token lists. -/
theorem c8_two_char_operators :
    lexer_new ['=', '='] = .ok ⟨0, 1, '='⟩ ∧
    test_token_set ['=', '='] 3 ⟨0, 1, '='⟩ =
      .ok [⟨⟨1, 2⟩, .EQ⟩, ⟨⟨2, 3⟩, .EOF⟩] ∧
    lexer_new ['!', '='] = .ok ⟨0, 1, '!'⟩ ∧
    test_token_set ['!', '='] 3 ⟨0, 1, '!'⟩ =
      .ok [⟨⟨1, 2⟩, .NotEq⟩, ⟨⟨2, 3⟩, .EOF⟩] := by
  refine ⟨?_, ?_, ?_, ?_⟩ <;> decide

lemma digit_not_ws {c : Char} (h : is_digit c = true) : is_ascii_whitespace c = false := by
  cases hw : is_ascii_whitespace c with
  | false => rfl
  | true =>
    exfalso
    simp only [is_digit, Bool.and_eq_true, decide_eq_true_eq] at h
    simp only [is_ascii_whitespace, Bool.or_eq_true, decide_eq_true_eq] at hw
    omega

/-- C2 counterexample: scanning the input of two equals signs yields an Eq
token whose span is the half-open range from 1 to 2 (covering only the
second character), not the range from 0 to 2 stated by the claim. -/
theorem c2_counterexample :
    lexer_new ['=', '='] = .ok ⟨0, 1, '='⟩ ∧
    next_token ['=', '='] ⟨0, 1, '='⟩ =
      .ok (⟨⟨1, 2⟩, .EQ⟩, ⟨2, 3, Char.ofNat 0⟩) ∧
    Span.mk 1 2 ≠ Span.mk 0 2 := by
  refine ⟨?_, ?_, ?_⟩ <;> decide

/-- C2 amended: on single-byte inputs, a single-character operator or
punctuation branch (including Assign and Bang) produces the span from the
position of the consumed character to one past it, while the
double-character branches Eq and NotEq produce the span covering only the
second of the two consumed characters. -/
theorem c2_amended_spans {s : List Char} (hA : allAscii s) {l : Lexer}
    (hinv : LexInv s l) (hws : is_ascii_whitespace l.ch = false) :
    (∀ k, opKind l.ch = some k →
      next_token s l =
        .ok ({ span := { start := l.position, stop := l.position + 1 }, kind := k },
          ⟨l.position + 1, l.position + 1 + 1, chAt s (l.position + 1)⟩)) ∧
    (l.ch = '=' → chAt s (l.position + 1) ≠ '=' →
      next_token s l =
        .ok ({ span := { start := l.position, stop := l.position + 1 }, kind := .ASSIGN },
          ⟨l.position + 1, l.position + 1 + 1, chAt s (l.position + 1)⟩)) ∧
    (l.ch = '=' → chAt s (l.position + 1) = '=' →
      next_token s l =
        .ok ({ span := { start := l.position + 1, stop := l.position + 1 + 1 }, kind := .EQ },
          ⟨l.position + 1 + 1, l.position + 1 + 1 + 1, chAt s (l.position + 1 + 1)⟩)) ∧
    (l.ch = '!' → chAt s (l.position + 1) ≠ '=' →
      next_token s l =
        .ok ({ span := { start := l.position, stop := l.position + 1 }, kind := .BANG },
          ⟨l.position + 1, l.position + 1 + 1, chAt s (l.position + 1)⟩)) ∧
    (l.ch = '!' → chAt s (l.position + 1) = '=' →
      next_token s l =
        .ok ({ span := { start := l.position + 1, stop := l.position + 1 + 1 }, kind := .NotEq },
          ⟨l.position + 1 + 1, l.position + 1 + 1 + 1, chAt s (l.position + 1 + 1)⟩)) := by
  have hnt : next_token s l = next_token_core s (byteLen s + 2) l := by
    unfold next_token
    rw [skip_whitespace_id _ hws]
    rfl
  refine ⟨fun k hk => ?_, fun h1 h2 => ?_, fun h1 h2 => ?_, fun h1 h2 => ?_, fun h1 h2 => ?_⟩
  · rw [hnt]; exact core_op hA hinv hk _
  · rw [hnt]; exact core_assign hA hinv h1 h2 _
  · rw [hnt]; exact core_eq hA hinv h1 h2 _
  · rw [hnt]; exact core_bang hA hinv h1 h2 _
  · rw [hnt]; exact core_noteq hA hinv h1 h2 _

/-- Witness for the amended C2 at the one-character input plus. -/
theorem c2_amended_spans_witness :
    next_token ['+'] ⟨0, 1, '+'⟩ =
      .ok ({ span := { start := 0, stop := 1 }, kind := .PLUS },
        ⟨1, 2, Char.ofNat 0⟩) := by
  exact (c2_amended_spans (by unfold allAscii; decide)
    (⟨rfl, by decide⟩) (by decide)).1 .PLUS (by decide)

/-- C7 counterexample: at the one-character input containing only the
two-byte character e-acute, the current character after construction is
unrecognized (no operator, not a quote, letter, digit or sentinel), yet
next_token does not return an Illegal token: it panics, because the final
cursor advance looks the next character up inside a byte-length bound. -/
theorem c7_counterexample :
    lexer_new ['é'] = .ok ⟨0, 1, 'é'⟩ ∧
    is_ascii_whitespace 'é' = false ∧ opKind 'é' = none ∧ is_letter 'é' = false ∧
    is_digit 'é' = false ∧ 'é' ≠ '\x22' ∧ 'é' ≠ Char.ofNat 0 ∧ 'é' ≠ '=' ∧ 'é' ≠ '!' ∧
    next_token ['é'] ⟨0, 1, 'é'⟩ = .err := by
  refine ⟨?_, ?_, ?_, ?_, ?_, ?_, ?_, ?_, ?_, ?_⟩ <;> decide

/-- C7 amended: on single-byte inputs, whenever the current character
after whitespace skipping is unrecognized, next_token returns an Illegal
token, consumes exactly one character, and the next call scans from the
immediately following character. -/
theorem c7_amended_illegal {s : List Char} (hA : allAscii s) {l : Lexer}
    (hinv : LexInv s l) (hws : is_ascii_whitespace l.ch = false)
    (hop : opKind l.ch = none) (hne : l.ch ≠ '=') (hnb : l.ch ≠ '!')
    (hq : l.ch ≠ '\x22') (hl : is_letter l.ch = false) (hd : is_digit l.ch = false)
    (h0 : l.ch ≠ Char.ofNat 0) :
    next_token s l =
      .ok ({ span := { start := l.position, stop := l.position + 1 }, kind := .ILLEGAL },
        ⟨l.position + 1, l.position + 1 + 1, chAt s (l.position + 1)⟩) ∧
    LexInv s ⟨l.position + 1, l.position + 1 + 1, chAt s (l.position + 1)⟩ := by
  have hnt : next_token s l = next_token_core s (byteLen s + 2) l := by
    unfold next_token
    rw [skip_whitespace_id _ hws]
    rfl
  refine ⟨?_, ⟨rfl, rfl⟩⟩
  rw [hnt]
  exact core_illegal hA hinv hop hne hnb h0 hq hl hd _

/-- Witness for the amended C7 at the one-character input at-sign. -/
theorem c7_amended_illegal_witness :
    next_token ['@'] ⟨0, 1, '@'⟩ =
      .ok ({ span := { start := 0, stop := 1 }, kind := .ILLEGAL },
        ⟨1, 2, Char.ofNat 0⟩) := by
  exact (c7_amended_illegal (by unfold allAscii; decide) (⟨rfl, by decide⟩)
    (by decide) (by decide) (by decide) (by decide) (by decide) (by decide)
    (by decide) (by decide)).1

/-- C3 counterexample: on the multi-byte input e-acute 2 5 semicolon, the
second call to next_token reaches the maximal digit run of the digits two
and five, which fits in a 64-bit signed integer, yet the call panics in
byte slicing (byte offset one falls inside the two-byte first character)
instead of returning an Int token carrying the value twenty-five. -/
theorem c3_counterexample :
    lexer_new ['é', '2', '5', ';'] = .ok ⟨0, 1, 'é'⟩ ∧
    next_token ['é', '2', '5', ';'] ⟨0, 1, 'é'⟩ =
      .ok (⟨⟨0, 1⟩, .ILLEGAL⟩, ⟨1, 2, '2'⟩) ∧
    is_digit '2' = true ∧
    digitRunAt ['é', '2', '5', ';'] 1 = ['2', '5'] ∧
    natOfDigits ['2', '5'] ≤ 9223372036854775807 ∧
    next_token ['é', '2', '5', ';'] ⟨1, 2, '2'⟩ = .err := by
  refine ⟨?_, ?_, ?_, ?_, ?_, ?_⟩ <;> decide

/-- C3 amended: on inputs of single-byte characters, when next_token
reaches a maximal digit run, the call is a hard failure of the whole
operation when the run overflows a 64-bit signed integer - no token, in
particular no Illegal token, is returned - and otherwise it returns an
Int token carrying the parsed value. -/
theorem c3_overflow_fatal {s : List Char} (hA : allAscii s) {l : Lexer}
    (hinv : LexInv s l) (hd : is_digit l.ch = true) :
    (9223372036854775807 < natOfDigits (digitRunAt s l.position) →
      next_token s l = .err) ∧
    (natOfDigits (digitRunAt s l.position) ≤ 9223372036854775807 →
      next_token s l =
        .ok ({ span := { start := l.position, stop := l.position + (digitRunAt s l.position).length },
               kind := .INT (Int.ofNat (natOfDigits (digitRunAt s l.position))) },
          ⟨l.position + (digitRunAt s l.position).length,
           l.position + (digitRunAt s l.position).length + 1,
           chAt s (l.position + (digitRunAt s l.position).length)⟩)) := by
  have hnt : next_token s l = next_token_core s (byteLen s + 2) l := by
    unfold next_token
    rw [skip_whitespace_id _ (digit_not_ws hd)]
    rfl
  have hfuel1 : s.length < l.position + (byteLen s + 2) + 1 := by
    rw [byteLen_ascii hA]
    omega
  constructor
  · intro hover
    rw [hnt]
    exact core_digit_overflow hA hinv hd hfuel1 hover
  · intro hfit
    rw [hnt]
    exact core_digit_ok hA hinv hd hfuel1 hfit

/-- Witness for C3: the input with the decimal digits of two to the
sixty-third power overflows and makes the call fail hard, while the input
five yields an Int token. -/
theorem c3_overflow_fatal_witness :
    next_token ['9', '2', '2', '3', '3', '7', '2', '0', '3', '6', '8', '5', '4', '7', '7', '5', '8', '0', '8']
      ⟨0, 1, '9'⟩ = .err ∧
    next_token ['5'] ⟨0, 1, '5'⟩ =
      .ok ({ span := { start := 0, stop := 1 }, kind := .INT 5 }, ⟨1, 2, Char.ofNat 0⟩) := by
  constructor
  · exact (c3_overflow_fatal (by unfold allAscii; decide) (⟨rfl, by decide⟩)
      (by decide)).1 (by decide)
  · exact (c3_overflow_fatal (by unfold allAscii; decide) (⟨rfl, by decide⟩)
      (by decide)).2 (by decide)

lemma finish_simple_kind {s : List Char} {l l2 : Lexer} {k : TokenKind} {t : Token}
    (h : finish_simple s l k = .ok (t, l2)) : t.kind = k := by
  unfold finish_simple at h
  cases hrc : read_char s l with
  | ok l3 =>
    rw [hrc] at h
    simp only [Res.bind, Res.ok.injEq, Prod.mk.injEq] at h
    rw [← h.1]
  | err =>
    rw [hrc] at h
    simp only [Res.bind] at h
    exact absurd h (by simp)
  | fuelOut =>
    rw [hrc] at h
    simp only [Res.bind] at h
    exact absurd h (by simp)

lemma lookup_ne_eof (x : List Char) : lookup_identifier x ≠ .EOF := by
  unfold lookup_identifier
  by_cases a1 : x = ['f', 'n']
  · simp [a1]
  rw [if_neg a1]
  by_cases a2 : x = ['l', 'e', 't']
  · simp [a2]
  rw [if_neg a2]
  by_cases a3 : x = ['t', 'r', 'u', 'e']
  · simp [a3]
  rw [if_neg a3]
  by_cases a4 : x = ['f', 'a', 'l', 's', 'e']
  · simp [a4]
  rw [if_neg a4]
  by_cases a5 : x = ['i', 'f']
  · simp [a5]
  rw [if_neg a5]
  by_cases a6 : x = ['e', 'l', 's', 'e']
  · simp [a6]
  rw [if_neg a6]
  by_cases a7 : x = ['r', 'e', 't', 'u', 'r', 'n']
  · simp [a7]
  rw [if_neg a7]
  simp

lemma core_kind_eof {s : List Char} {fuel : Nat} {l : Lexer} {t : Token} {l1 : Lexer}
    (h : next_token_core s fuel l = .ok (t, l1)) (hk : t.kind = .EOF) :
    l.ch = Char.ofNat 0 := by
  by_contra h0
  unfold next_token_core at h
  by_cases h1 : l.ch = '='
  · rw [if_pos h1] at h
    cases hp : peek_char s l with
    | ok p =>
      rw [hp] at h
      simp only [Res.bind] at h
      by_cases hpe : p = '='
      · rw [if_pos hpe] at h
        cases hrc : read_char s l with
        | ok l3 =>
          rw [hrc] at h
          simp only [Res.bind] at h
          have hkk := finish_simple_kind h
          rw [hk] at hkk
          exact absurd hkk (by decide)
        | err =>
          rw [hrc] at h
          simp only [Res.bind] at h
          exact absurd h (by simp)
        | fuelOut =>
          rw [hrc] at h
          simp only [Res.bind] at h
          exact absurd h (by simp)
      · rw [if_neg hpe] at h
        have hkk := finish_simple_kind h
        rw [hk] at hkk
        exact absurd hkk (by decide)
    | err =>
      rw [hp] at h
      simp only [Res.bind] at h
      exact absurd h (by simp)
    | fuelOut =>
      rw [hp] at h
      simp only [Res.bind] at h
      exact absurd h (by simp)
  rw [if_neg h1] at h
  by_cases h2 : l.ch = ';'
  · rw [if_pos h2] at h
    have hkk := finish_simple_kind h
    rw [hk] at hkk
    exact absurd hkk (by decide)
  rw [if_neg h2] at h
  by_cases h3 : l.ch = '('
  · rw [if_pos h3] at h
    have hkk := finish_simple_kind h
    rw [hk] at hkk
    exact absurd hkk (by decide)
  rw [if_neg h3] at h
  by_cases h4 : l.ch = ')'
  · rw [if_pos h4] at h
    have hkk := finish_simple_kind h
    rw [hk] at hkk
    exact absurd hkk (by decide)
  rw [if_neg h4] at h
  by_cases h5 : l.ch = ','
  · rw [if_pos h5] at h
    have hkk := finish_simple_kind h
    rw [hk] at hkk
    exact absurd hkk (by decide)
  rw [if_neg h5] at h
  by_cases h6 : l.ch = '+'
  · rw [if_pos h6] at h
    have hkk := finish_simple_kind h
    rw [hk] at hkk
    exact absurd hkk (by decide)
  rw [if_neg h6] at h
  by_cases h7 : l.ch = '-'
  · rw [if_pos h7] at h
    have hkk := finish_simple_kind h
    rw [hk] at hkk
    exact absurd hkk (by decide)
  rw [if_neg h7] at h
  by_cases h8 : l.ch = '!'
  · rw [if_pos h8] at h
    cases hp : peek_char s l with
    | ok p =>
      rw [hp] at h
      simp only [Res.bind] at h
      by_cases hpe : p = '='
      · rw [if_pos hpe] at h
        cases hrc : read_char s l with
        | ok l3 =>
          rw [hrc] at h
          simp only [Res.bind] at h
          have hkk := finish_simple_kind h
          rw [hk] at hkk
          exact absurd hkk (by decide)
        | err =>
          rw [hrc] at h
          simp only [Res.bind] at h
          exact absurd h (by simp)
        | fuelOut =>
          rw [hrc] at h
          simp only [Res.bind] at h
          exact absurd h (by simp)
      · rw [if_neg hpe] at h
        have hkk := finish_simple_kind h
        rw [hk] at hkk
        exact absurd hkk (by decide)
    | err =>
      rw [hp] at h
      simp only [Res.bind] at h
      exact absurd h (by simp)
    | fuelOut =>
      rw [hp] at h
      simp only [Res.bind] at h
      exact absurd h (by simp)
  rw [if_neg h8] at h
  by_cases h9 : l.ch = '*'
  · rw [if_pos h9] at h
    have hkk := finish_simple_kind h
    rw [hk] at hkk
    exact absurd hkk (by decide)
  rw [if_neg h9] at h
  by_cases h10 : l.ch = '/'
  · rw [if_pos h10] at h
    have hkk := finish_simple_kind h
    rw [hk] at hkk
    exact absurd hkk (by decide)
  rw [if_neg h10] at h
  by_cases h11 : l.ch = '<'
  · rw [if_pos h11] at h
    have hkk := finish_simple_kind h
    rw [hk] at hkk
    exact absurd hkk (by decide)
  rw [if_neg h11] at h
  by_cases h12 : l.ch = '>'
  · rw [if_pos h12] at h
    have hkk := finish_simple_kind h
    rw [hk] at hkk
    exact absurd hkk (by decide)
  rw [if_neg h12] at h
  by_cases h13 : l.ch = '\x7b'
  · rw [if_pos h13] at h
    have hkk := finish_simple_kind h
    rw [hk] at hkk
    exact absurd hkk (by decide)
  rw [if_neg h13] at h
  by_cases h14 : l.ch = '\x7d'
  · rw [if_pos h14] at h
    have hkk := finish_simple_kind h
    rw [hk] at hkk
    exact absurd hkk (by decide)
  rw [if_neg h14] at h
  by_cases h15 : l.ch = '['
  · rw [if_pos h15] at h
    have hkk := finish_simple_kind h
    rw [hk] at hkk
    exact absurd hkk (by decide)
  rw [if_neg h15] at h
  by_cases h16 : l.ch = ':'
  · rw [if_pos h16] at h
    have hkk := finish_simple_kind h
    rw [hk] at hkk
    exact absurd hkk (by decide)
  rw [if_neg h16] at h
  by_cases h17 : l.ch = ']'
  · rw [if_pos h17] at h
    have hkk := finish_simple_kind h
    rw [hk] at hkk
    exact absurd hkk (by decide)
  rw [if_neg h17] at h
  by_cases h18 : l.ch = Char.ofNat 0
  · exact absurd h18 h0
  rw [if_neg h18] at h
  by_cases h19 : l.ch = '\x22'
  · rw [if_pos h19] at h
    cases hr : read_string s fuel l with
    | ok r =>
      rw [hr] at h
      simp only [Res.bind, Res.ok.injEq, Prod.mk.injEq] at h
      rw [← h.1] at hk
      simp at hk
    | err =>
      rw [hr] at h
      simp only [Res.bind] at h
      exact absurd h (by simp)
    | fuelOut =>
      rw [hr] at h
      simp only [Res.bind] at h
      exact absurd h (by simp)
  rw [if_neg h19] at h
  by_cases h20 : is_letter l.ch = true
  · rw [if_pos h20] at h
    cases hr : read_identifier s fuel l with
    | ok r =>
      rw [hr] at h
      simp only [Res.bind, Res.ok.injEq, Prod.mk.injEq] at h
      rw [← h.1] at hk
      exact absurd hk (lookup_ne_eof _)
    | err =>
      rw [hr] at h
      simp only [Res.bind] at h
      exact absurd h (by simp)
    | fuelOut =>
      rw [hr] at h
      simp only [Res.bind] at h
      exact absurd h (by simp)
  rw [if_neg h20] at h
  by_cases h21 : is_digit l.ch = true
  · rw [if_pos h21] at h
    cases hr : read_number s fuel l with
    | ok r =>
      rw [hr] at h
      simp only [Res.bind, Res.ok.injEq, Prod.mk.injEq] at h
      rw [← h.1] at hk
      simp at hk
    | err =>
      rw [hr] at h
      simp only [Res.bind] at h
      exact absurd h (by simp)
    | fuelOut =>
      rw [hr] at h
      simp only [Res.bind] at h
      exact absurd h (by simp)
  rw [if_neg h21] at h
  have hkk := finish_simple_kind h
  rw [hk] at hkk
  exact absurd hkk (by decide)

lemma read_char_invGen {s : List Char} {l l' : Lexer} (h : read_char s l = .ok l') :
    LexInvGen s l' := by
  unfold read_char at h
  by_cases hb : byteLen s ≤ l.read_position
  · rw [if_pos hb] at h
    simp only [Res.ok.injEq] at h
    subst h
    exact ⟨rfl, Or.inl ⟨hb, rfl⟩⟩
  · rw [if_neg hb] at h
    cases hg : s.get? l.read_position with
    | some c =>
      rw [hg] at h
      simp only [Res.ok.injEq] at h
      subst h
      exact ⟨rfl, Or.inr ⟨show l.read_position < byteLen s by omega, hg⟩⟩
    | none =>
      rw [hg] at h
      exact absurd h (by simp)

lemma skip_whitespace_invGen {s : List Char} : ∀ (fuel : Nat) {l l1 : Lexer},
    LexInvGen s l → skip_whitespace s fuel l = .ok l1 → LexInvGen s l1
  | 0, l, l1, hinv, h => by
    simp only [skip_whitespace] at h
    by_cases hws : is_ascii_whitespace l.ch = true
    · rw [if_pos hws] at h
      exact absurd h (by simp)
    · rw [if_neg hws] at h
      simp only [Res.ok.injEq] at h
      subst h
      exact hinv
  | fuel + 1, l, l1, hinv, h => by
    simp only [skip_whitespace] at h
    by_cases hws : is_ascii_whitespace l.ch = true
    · rw [if_pos hws] at h
      cases hrc : read_char s l with
      | ok l2 =>
        rw [hrc] at h
        simp only [Res.bind] at h
        exact skip_whitespace_invGen fuel (read_char_invGen hrc) h
      | err =>
        rw [hrc] at h
        exact absurd h (by simp [Res.bind])
      | fuelOut =>
        rw [hrc] at h
        exact absurd h (by simp [Res.bind])
    · rw [if_neg hws] at h
      simp only [Res.ok.injEq] at h
      subst h
      exact hinv

lemma core_eof_at_end {s : List Char} {l : Lexer} (hrp : l.read_position = l.position + 1)
    (hpos : byteLen s ≤ l.position) (hch : l.ch = Char.ofNat 0) (fuel : Nat) :
    next_token_core s fuel l =
      .ok ({ span := { start := l.position, stop := l.position + 1 }, kind := .EOF },
        ⟨l.position + 1, l.position + 2, Char.ofNat 0⟩) := by
  rw [show next_token_core s fuel l = finish_simple s l .EOF from by
    simp [next_token_core, hch]]
  unfold finish_simple read_char
  rw [hrp, if_pos (by omega)]
  simp [Res.bind]

lemma eof_step {s : List Char} {l : Lexer} (hrp : l.read_position = l.position + 1)
    (hpos : byteLen s ≤ l.position) (hch : l.ch = Char.ofNat 0) :
    next_token s l =
      .ok ({ span := { start := l.position, stop := l.position + 1 }, kind := .EOF },
        ⟨l.position + 1, l.position + 2, Char.ofNat 0⟩) := by
  unfold next_token
  rw [skip_whitespace_id _ (by rw [hch]; decide)]
  show next_token_core s (byteLen s + 2) l = _
  exact core_eof_at_end hrp hpos hch _

lemma eof_run {s : List Char} : ∀ (n : Nat) (l : Lexer),
    l.read_position = l.position + 1 → byteLen s ≤ l.position → l.ch = Char.ofNat 0 →
    run_n s n l = .ok ⟨l.position + n, l.position + n + 1, Char.ofNat 0⟩
  | 0, l, hrp, hpos, hch => by
    simp only [run_n, Nat.add_zero]
    congr 1
    cases l
    simp_all
  | n + 1, l, hrp, hpos, hch => by
    simp only [run_n]
    rw [eof_step hrp hpos hch]
    simp only [Res.bind]
    rw [eof_run n ⟨l.position + 1, l.position + 2, Char.ofNat 0⟩ rfl
      (show byteLen s ≤ l.position + 1 by omega) rfl]
    have harith : l.position + 1 + n = l.position + (n + 1) := by omega
    simp only [harith]

/-- C10: at end-of-input, every Eof token carries a span of width exactly
one whose start is at or past the character length of the input, the span
start strictly increases from each call to the next (the cursor keeps
advancing past the sentinel), and consecutive Eof tokens agree in kind but
are distinct as whole tokens: only kind idempotence holds at end-of-input. -/
theorem c10_eof_spans {s : List Char} {l : Lexer}
    (hrp : l.read_position = l.position + 1) (hpos : byteLen s ≤ l.position)
    (hch : l.ch = Char.ofNat 0) (n : Nat) :
    ∃ t1 t2 l1 l2 l3 l4,
      run_n s n l = .ok l1 ∧ next_token s l1 = .ok (t1, l2) ∧
      run_n s (n + 1) l = .ok l3 ∧ next_token s l3 = .ok (t2, l4) ∧
      t1.kind = .EOF ∧ t2.kind = .EOF ∧
      t1.span = ⟨l.position + n, l.position + n + 1⟩ ∧
      t2.span = ⟨l.position + n + 1, l.position + n + 1 + 1⟩ ∧
      t1.span.stop = t1.span.start + 1 ∧ t2.span.stop = t2.span.start + 1 ∧
      s.length ≤ t1.span.start ∧ t1.span.start < t2.span.start ∧
      t1.kind = t2.kind ∧ t1 ≠ t2 := by
  have hlb := length_le_byteLen s
  have hr1 := eof_run n l hrp hpos hch
  have hr2 := eof_run (n + 1) l hrp hpos hch
  have hs1 := eof_step (l := ⟨l.position + n, l.position + n + 1, Char.ofNat 0⟩) rfl
    (show byteLen s ≤ l.position + n by omega) rfl
  have hs2 := eof_step (l := ⟨l.position + (n + 1), l.position + (n + 1) + 1, Char.ofNat 0⟩) rfl
    (show byteLen s ≤ l.position + (n + 1) by omega) rfl
  refine ⟨_, _, _, _, _, _, hr1, hs1, hr2, hs2, rfl, rfl, rfl, rfl, rfl, rfl, ?_, ?_, rfl, ?_⟩
  · show s.length ≤ l.position + n
    omega
  · show l.position + n < l.position + n + 1
    omega
  · intro hcontra
    have : l.position + n = l.position + n + 1 := congrArg (fun t => t.span.start) hcontra
    omega

/-- Witness for C10 at the empty input just after construction, comparing
the first and second Eof tokens. -/
theorem c10_eof_spans_witness :
    lexer_new [] = .ok ⟨0, 1, Char.ofNat 0⟩ ∧
    ∃ t1 t2 l1 l2 l3 l4,
      run_n [] 0 ⟨0, 1, Char.ofNat 0⟩ = .ok l1 ∧
      next_token [] l1 = .ok (t1, l2) ∧
      run_n [] 1 ⟨0, 1, Char.ofNat 0⟩ = .ok l3 ∧
      next_token [] l3 = .ok (t2, l4) ∧
      t1.kind = .EOF ∧ t2.kind = .EOF ∧
      t1.span = ⟨0, 1⟩ ∧ t2.span = ⟨1, 2⟩ ∧
      t1.span.stop = t1.span.start + 1 ∧ t2.span.stop = t2.span.start + 1 ∧
      List.length ([] : List Char) ≤ t1.span.start ∧ t1.span.start < t2.span.start ∧
      t1.kind = t2.kind ∧ t1 ≠ t2 := by
  refine ⟨by decide, ?_⟩
  exact c10_eof_spans (s := []) (l := ⟨0, 1, Char.ofNat 0⟩) rfl (by decide) rfl 0

/-- C4 counterexample: on the input consisting of a zero character followed
by a semicolon, the first call to next_token returns a token of kind Eof
and the very next call returns a Semicolon token, so the stream does not
stay at Eof for every input. -/
theorem c4_counterexample :
    lexer_new [Char.ofNat 0, ';'] = .ok ⟨0, 1, Char.ofNat 0⟩ ∧
    next_token [Char.ofNat 0, ';'] ⟨0, 1, Char.ofNat 0⟩ =
      .ok (⟨⟨0, 1⟩, .EOF⟩, ⟨1, 2, ';'⟩) ∧
    next_token [Char.ofNat 0, ';'] ⟨1, 2, ';'⟩ =
      .ok (⟨⟨1, 2⟩, .SEMICOLON⟩, ⟨2, 3, Char.ofNat 0⟩) ∧
    TokenKind.SEMICOLON ≠ TokenKind.EOF := by
  refine ⟨?_, ?_, ?_, ?_⟩ <;> decide

/-- C4 amended: for every input containing no zero character, once a call
to next_token made from a state satisfying the cursor invariant has
returned a token of kind Eof, every subsequent call also returns a token
of kind Eof. -/
theorem c4_amended_eof_persists {s : List Char} (hnul : ∀ c ∈ s, c ≠ Char.ofNat 0)
    {l : Lexer} (hinv : LexInvGen s l) {t : Token} {l1 : Lexer}
    (hcall : next_token s l = .ok (t, l1)) (hk : t.kind = .EOF) (n : Nat) :
    ∃ l2 t2 l3, run_n s n l1 = .ok l2 ∧ next_token s l2 = .ok (t2, l3) ∧
      t2.kind = .EOF := by
  unfold next_token at hcall
  cases hskip : skip_whitespace s (byteLen s + 2) l with
  | ok lm =>
    rw [hskip] at hcall
    simp only [Res.bind] at hcall
    have hinvm := skip_whitespace_invGen _ hinv hskip
    have hch0 : lm.ch = Char.ofNat 0 := core_kind_eof hcall hk
    have hpos : byteLen s ≤ lm.position := by
      rcases hinvm.2 with ⟨hb, _⟩ | ⟨_, hg⟩
      · exact hb
      · exact absurd hch0 (hnul _ (List.get?_mem hg))
    have hstep := core_eof_at_end hinvm.1 hpos hch0 (byteLen s + 2)
    rw [hstep] at hcall
    simp only [Res.ok.injEq, Prod.mk.injEq] at hcall
    have hl1 : l1 = ⟨lm.position + 1, lm.position + 2, Char.ofNat 0⟩ := hcall.2.symm
    subst hl1
    have hrun := eof_run n ⟨lm.position + 1, lm.position + 2, Char.ofNat 0⟩ rfl
      (show byteLen s ≤ lm.position + 1 by omega) rfl
    have hstep2 := eof_step
      (l := ⟨lm.position + 1 + n, lm.position + 1 + n + 1, Char.ofNat 0⟩)
      rfl (show byteLen s ≤ lm.position + 1 + n by omega) rfl
    exact ⟨_, _, _, hrun, hstep2, rfl⟩
  | err =>
    rw [hskip] at hcall
    exact absurd hcall (by simp [Res.bind])
  | fuelOut =>
    rw [hskip] at hcall
    exact absurd hcall (by simp [Res.bind])

/-- Witness for the amended C4 at the empty input: the state after the
first Eof-returning call keeps yielding Eof one call later. -/
theorem c4_amended_eof_persists_witness :
    ∃ l2 t2 l3, run_n [] 1 ⟨1, 2, Char.ofNat 0⟩ = .ok l2 ∧
      next_token [] l2 = .ok (t2, l3) ∧ t2.kind = .EOF := by
  exact c4_amended_eof_persists (s := []) (by simp)
    (l := ⟨0, 1, Char.ofNat 0⟩) (⟨rfl, Or.inl ⟨by decide, rfl⟩⟩)
    (show next_token [] ⟨0, 1, Char.ofNat 0⟩ =
      .ok (⟨⟨0, 1⟩, .EOF⟩, ⟨1, 2, Char.ofNat 0⟩) by decide) rfl 1

lemma takeWhile_all_true {p : Char → Bool} : ∀ {xs : List Char},
    (∀ c ∈ xs, p c = true) → xs.takeWhile p = xs
  | [], _ => rfl
  | c :: t, h => by
    rw [List.takeWhile_cons, if_pos (h c (List.mem_cons_self c t))]
    rw [takeWhile_all_true (fun x hx => h x (List.mem_cons_of_mem c hx))]

/-- C6: on a single-byte input with no double quote and no zero character
after the opening quote, next_token starting at the opening quote reaches
end-of-input and returns a String token whose text is everything after the
quote up to the input end, whose span runs from the quote position to the
input end, with no error raised; the following call returns Eof. -/
theorem c6_unterminated_string {s : List Char} (hA : allAscii s) {l : Lexer}
    (hinv : LexInv s l) (hq : l.ch = '\x22')
    (htail : ∀ c ∈ s.drop (l.position + 1), c ≠ '\x22' ∧ c ≠ Char.ofNat 0) :
    ∃ l1 t2 l2,
      next_token s l =
        .ok ({ span := { start := l.position, stop := s.length },
               kind := .STRING (s.drop (l.position + 1)) }, l1) ∧
      next_token s l1 = .ok (t2, l2) ∧ t2.kind = .EOF := by
  have hplt : l.position < s.length := by
    apply lt_of_chAt_ne
    rw [← hinv.2, hq]
    decide
  have hfuel : s.length < l.position + (byteLen s + 2) := by
    rw [byteLen_ascii hA]
    omega
  have hRun : strRun s l.position = s.drop (l.position + 1) := by
    unfold strRun
    apply takeWhile_all_true
    intro c hc
    have hcc := htail c hc
    simp [string_content, hcc.1, hcc.2]
  have hEnd : strEnd s l.position = s.length := by
    unfold strEnd
    rw [hRun, List.length_drop]
    omega
  have hrun0 := core_string hA hinv hq hfuel
  rw [hEnd, hRun] at hrun0
  have hch0 : chAt s s.length = Char.ofNat 0 := chAt_of_le (Nat.le_refl _)
  rcases hrun0 with ⟨hterm, _⟩ | ⟨_, hrun⟩
  · rw [hch0] at hterm
    exact absurd hterm (by decide)
  · have hnt : next_token s l = next_token_core s (byteLen s + 2) l := by
      unfold next_token
      rw [skip_whitespace_id _ (by rw [hq]; decide)]
      rfl
    refine ⟨⟨s.length, s.length + 1, chAt s s.length⟩,
      ⟨⟨s.length, s.length + 1⟩, .EOF⟩,
      ⟨s.length + 1, s.length + 2, Char.ofNat 0⟩, ?_, ?_, rfl⟩
    · rw [hnt]
      exact hrun
    · exact eof_step (l := ⟨s.length, s.length + 1, chAt s s.length⟩) rfl
        (show byteLen s ≤ s.length by rw [byteLen_ascii hA]) (hch0 ▸ rfl)

/-- Witness for C6 at the input of a quote followed by two letters. -/
theorem c6_unterminated_string_witness :
    ∃ l1 t2 l2,
      next_token ['\x22', 'a', 'b'] ⟨0, 1, '\x22'⟩ =
        .ok ({ span := { start := 0, stop := 3 }, kind := .STRING ['a', 'b'] }, l1) ∧
      next_token ['\x22', 'a', 'b'] l1 = .ok (t2, l2) ∧ t2.kind = .EOF := by
  exact c6_unterminated_string (by unfold allAscii; decide)
    (l := ⟨0, 1, '\x22'⟩) (⟨rfl, by decide⟩) (by decide) (by decide)

lemma lexeme_single {s : List Char} {a : Nat} (h : a < s.length) (k : TokenKind) :
    lexeme s ⟨⟨a, a + 1⟩, k⟩ = [chAt s a] := by
  unfold lexeme
  have h1 : a + 1 - a = 1 := by omega
  simp only [h1]
  rw [drop_chAt_cons h]
  rfl

lemma lexeme_run {s : List Char} (a n : Nat) (k : TokenKind) :
    lexeme s ⟨⟨a, a + n⟩, k⟩ = (s.drop a).take n := by
  unfold lexeme
  have h1 : a + n - a = n := by omega
  simp only [h1]

lemma spanOK_of_opKind {c : Char} {k : TokenKind} (hk : opKind c = some k)
    {s : List Char} {sp : Span} (hl : lexeme s ⟨sp, k⟩ = [c]) : spanOK s ⟨sp, k⟩ := by
  by_cases h1 : c = ';'
  · subst h1
    simp [opKind] at hk
    subst hk
    exact hl
  by_cases h2 : c = '('
  · subst h2
    simp [opKind] at hk
    subst hk
    exact hl
  by_cases h3 : c = ')'
  · subst h3
    simp [opKind] at hk
    subst hk
    exact hl
  by_cases h4 : c = ','
  · subst h4
    simp [opKind] at hk
    subst hk
    exact hl
  by_cases h5 : c = '+'
  · subst h5
    simp [opKind] at hk
    subst hk
    exact hl
  by_cases h6 : c = '-'
  · subst h6
    simp [opKind] at hk
    subst hk
    exact hl
  by_cases h7 : c = '*'
  · subst h7
    simp [opKind] at hk
    subst hk
    exact hl
  by_cases h8 : c = '/'
  · subst h8
    simp [opKind] at hk
    subst hk
    exact hl
  by_cases h9 : c = '<'
  · subst h9
    simp [opKind] at hk
    subst hk
    exact hl
  by_cases h10 : c = '>'
  · subst h10
    simp [opKind] at hk
    subst hk
    exact hl
  by_cases h11 : c = '\x7b'
  · subst h11
    simp [opKind] at hk
    subst hk
    exact hl
  by_cases h12 : c = '\x7d'
  · subst h12
    simp [opKind] at hk
    subst hk
    exact hl
  by_cases h13 : c = '['
  · subst h13
    simp [opKind] at hk
    subst hk
    exact hl
  by_cases h14 : c = ':'
  · subst h14
    simp [opKind] at hk
    subst hk
    exact hl
  by_cases h15 : c = ']'
  · subst h15
    simp [opKind] at hk
    subst hk
    exact hl
  simp [opKind, h1, h2, h3, h4, h5, h6, h7, h8, h9, h10, h11, h12, h13, h14, h15] at hk

lemma spanOK_lookup {s : List Char} {sp : Span} {x : List Char}
    (hl : lexeme s ⟨sp, lookup_identifier x⟩ = x) :
    spanOK s ⟨sp, lookup_identifier x⟩ := by
  by_cases a1 : x = ['f', 'n']
  · rw [show lookup_identifier x = .FUNCTION from by
      unfold lookup_identifier; rw [a1]; rfl] at hl ⊢
    rw [a1] at hl
    exact hl
  by_cases a2 : x = ['l', 'e', 't']
  · rw [show lookup_identifier x = .LET from by
      unfold lookup_identifier; rw [a2]; rfl] at hl ⊢
    rw [a2] at hl
    exact hl
  by_cases a3 : x = ['t', 'r', 'u', 'e']
  · rw [show lookup_identifier x = .TRUE from by
      unfold lookup_identifier; rw [a3]; rfl] at hl ⊢
    rw [a3] at hl
    exact hl
  by_cases a4 : x = ['f', 'a', 'l', 's', 'e']
  · rw [show lookup_identifier x = .FALSE from by
      unfold lookup_identifier; rw [a4]; rfl] at hl ⊢
    rw [a4] at hl
    exact hl
  by_cases a5 : x = ['i', 'f']
  · rw [show lookup_identifier x = .IF from by
      unfold lookup_identifier; rw [a5]; rfl] at hl ⊢
    rw [a5] at hl
    exact hl
  by_cases a6 : x = ['e', 'l', 's', 'e']
  · rw [show lookup_identifier x = .ELSE from by
      unfold lookup_identifier; rw [a6]; rfl] at hl ⊢
    rw [a6] at hl
    exact hl
  by_cases a7 : x = ['r', 'e', 't', 'u', 'r', 'n']
  · rw [show lookup_identifier x = .RETURN from by
      unfold lookup_identifier; rw [a7]; rfl] at hl ⊢
    rw [a7] at hl
    exact hl
  rw [show lookup_identifier x = .IDENT x from by
    unfold lookup_identifier; rw [if_neg a1, if_neg a2, if_neg a3, if_neg a4, if_neg a5, if_neg a6, if_neg a7]] at hl ⊢
  exact hl

/-- C1 counterexample: on the multi-byte input consisting of e-acute, two
plus signs, the letter a and a plus sign, the fourth token returned is an
identifier token carrying the text plus (byte-based slicing misaligned by
the two-byte first character), while slicing the input at its span's
character offsets yields the letter a: the span does not reproduce the
token's source text. -/
theorem c1_counterexample :
    lexer_new ['é', '+', '+', 'a', '+'] = .ok ⟨0, 1, 'é'⟩ ∧
    run_n ['é', '+', '+', 'a', '+'] 3 ⟨0, 1, 'é'⟩ = .ok ⟨3, 4, 'a'⟩ ∧
    next_token ['é', '+', '+', 'a', '+'] ⟨3, 4, 'a'⟩ =
      .ok (⟨⟨3, 4⟩, .IDENT ['+']⟩, ⟨4, 5, '+'⟩) ∧
    lexeme ['é', '+', '+', 'a', '+'] ⟨⟨3, 4⟩, .IDENT ['+']⟩ = ['a'] ∧
    (['a'] : List Char) ≠ ['+'] := by
  refine ⟨?_, ?_, ?_, ?_, ?_⟩ <;> decide

/-- C1 amended: on inputs of single-byte characters, every token returned
by next_token carries character-index span offsets whose slice of the
input reproduces the token's source text as far as the token determines it
(identifier and keyword text, the digit run of an Int, the quoted text of
a String, the operator character, the single consumed character of an
Illegal token); the Eq and NotEq tokens (whose spans cover only their
second character, see the amended C2) and Eof carry no such demand. -/
theorem c1_amended_span_slicing {s : List Char} (hA : allAscii s) {l : Lexer}
    (hinv : LexInv s l) {t : Token} {l2 : Lexer}
    (h : next_token s l = .ok (t, l2)) : spanOK s t := by
  obtain ⟨l1, hinv1, hws1, hle1, hview⟩ := next_token_view hA hinv
  rw [hview] at h
  have hfuel : s.length < l1.position + (byteLen s + 2) := by
    rw [byteLen_ascii hA]
    omega
  have hfuel1 : s.length < l1.position + (byteLen s + 2) + 1 := by omega
  cases hk : opKind l1.ch with
  | some k =>
    have hplt : l1.position < s.length := by
      apply lt_of_chAt_ne
      rw [← hinv1.2]
      intro hc
      rw [hc] at hk
      simp [opKind] at hk
    rw [core_op hA hinv1 hk _] at h
    simp only [Res.ok.injEq, Prod.mk.injEq] at h
    obtain ⟨ht, -⟩ := h
    subst ht
    apply spanOK_of_opKind hk
    rw [lexeme_single hplt, ← hinv1.2]
  | none =>
    by_cases hEq : l1.ch = '='
    · by_cases hpk : chAt s (l1.position + 1) = '='
      · rw [core_eq hA hinv1 hEq hpk _] at h
        simp only [Res.ok.injEq, Prod.mk.injEq] at h
        obtain ⟨ht, -⟩ := h
        subst ht
        show True
        trivial
      · have hplt : l1.position < s.length := by
          apply lt_of_chAt_ne
          rw [← hinv1.2, hEq]
          decide
        rw [core_assign hA hinv1 hEq hpk _] at h
        simp only [Res.ok.injEq, Prod.mk.injEq] at h
        obtain ⟨ht, -⟩ := h
        subst ht
        show lexeme s ⟨⟨l1.position, l1.position + 1⟩, .ASSIGN⟩ = ['=']
        rw [lexeme_single hplt, ← hinv1.2, hEq]
    by_cases hBg : l1.ch = '!'
    · by_cases hpk : chAt s (l1.position + 1) = '='
      · rw [core_noteq hA hinv1 hBg hpk _] at h
        simp only [Res.ok.injEq, Prod.mk.injEq] at h
        obtain ⟨ht, -⟩ := h
        subst ht
        show True
        trivial
      · have hplt : l1.position < s.length := by
          apply lt_of_chAt_ne
          rw [← hinv1.2, hBg]
          decide
        rw [core_bang hA hinv1 hBg hpk _] at h
        simp only [Res.ok.injEq, Prod.mk.injEq] at h
        obtain ⟨ht, -⟩ := h
        subst ht
        show lexeme s ⟨⟨l1.position, l1.position + 1⟩, .BANG⟩ = ['!']
        rw [lexeme_single hplt, ← hinv1.2, hBg]
    by_cases h0 : l1.ch = Char.ofNat 0
    · rw [core_eof hA hinv1 h0 _] at h
      simp only [Res.ok.injEq, Prod.mk.injEq] at h
      obtain ⟨ht, -⟩ := h
      subst ht
      show True
      trivial
    by_cases hq : l1.ch = '\x22'
    · have hplt : l1.position < s.length := by
        apply lt_of_chAt_ne
        rw [← hinv1.2, hq]
        decide
      have hKle : (strRun s l1.position).length ≤ s.length - (l1.position + 1) := by
        have := takeWhile_length_le string_content (s.drop (l1.position + 1))
        rw [List.length_drop] at this
        exact this
      rcases core_string hA hinv1 hq hfuel with ⟨hterm, hrun⟩ | ⟨hunterm, hrun⟩
      · rw [hrun] at h
        simp only [Res.ok.injEq, Prod.mk.injEq] at h
        obtain ⟨ht, -⟩ := h
        subst ht
        have hPlt : strEnd s l1.position < s.length := by
          apply lt_of_chAt_ne
          rw [hterm]
          decide
        show lexeme s ⟨⟨l1.position, strEnd s l1.position + 1⟩, .STRING (strRun s l1.position)⟩ =
            '\x22' :: strRun s l1.position ++ ['\x22'] ∨
          lexeme s ⟨⟨l1.position, strEnd s l1.position + 1⟩, .STRING (strRun s l1.position)⟩ =
            '\x22' :: strRun s l1.position
        left
        simp only [strEnd, strRun] at hterm hPlt ⊢
        have harith : l1.position + 1 +
            (List.takeWhile string_content (List.drop (l1.position + 1) s)).length + 1 =
            l1.position +
              ((List.takeWhile string_content (List.drop (l1.position + 1) s)).length + 1 + 1) := by
          omega
        rw [harith, lexeme_run, drop_chAt_cons hplt, List.take_succ_cons, List.take_succ,
          take_takeWhile]
        have hidx : (List.drop (l1.position + 1) s)[(List.takeWhile string_content
            (List.drop (l1.position + 1) s)).length]? =
            some (chAt s (l1.position + 1 +
              (List.takeWhile string_content (List.drop (l1.position + 1) s)).length)) := by
          rw [List.getElem?_drop]
          exact getElem?_eq_chAt (by omega)
        rw [hidx, hterm, ← hinv1.2, hq]
        rfl
      · rw [hrun] at h
        simp only [Res.ok.injEq, Prod.mk.injEq] at h
        obtain ⟨ht, -⟩ := h
        subst ht
        show lexeme s ⟨⟨l1.position, strEnd s l1.position⟩, .STRING (strRun s l1.position)⟩ =
            '\x22' :: strRun s l1.position ++ ['\x22'] ∨
          lexeme s ⟨⟨l1.position, strEnd s l1.position⟩, .STRING (strRun s l1.position)⟩ =
            '\x22' :: strRun s l1.position
        right
        simp only [strEnd, strRun]
        have harith : l1.position + 1 +
            (List.takeWhile string_content (List.drop (l1.position + 1) s)).length =
            l1.position +
              ((List.takeWhile string_content (List.drop (l1.position + 1) s)).length + 1) := by
          omega
        rw [harith, lexeme_run, drop_chAt_cons hplt, List.take_succ_cons, take_takeWhile,
          ← hinv1.2, hq]
    by_cases hl : is_letter l1.ch = true
    · rw [core_ident hA hinv1 hl hfuel1] at h
      simp only [Res.ok.injEq, Prod.mk.injEq] at h
      obtain ⟨ht, -⟩ := h
      subst ht
      apply spanOK_lookup
      rw [lexeme_run]
      unfold letterRunAt
      rw [take_takeWhile]
    by_cases hd : is_digit l1.ch = true
    · have hplt : l1.position < s.length := by
        apply lt_of_chAt_ne
        rw [← hinv1.2]
        intro hc
        rw [hc] at hd
        exact absurd hd (by decide)
      by_cases hfit : natOfDigits (digitRunAt s l1.position) ≤ 9223372036854775807
      · rw [core_digit_ok hA hinv1 hd hfuel1 hfit] at h
        simp only [Res.ok.injEq, Prod.mk.injEq] at h
        obtain ⟨ht, -⟩ := h
        subst ht
        show lexeme s ⟨⟨l1.position, l1.position + (digitRunAt s l1.position).length⟩,
            .INT (Int.ofNat (natOfDigits (digitRunAt s l1.position)))⟩ ≠ [] ∧ _
        rw [lexeme_run]
        unfold digitRunAt
        rw [take_takeWhile]
        refine ⟨?_, ?_, rfl⟩
        · exact digitRunAt_ne_nil hplt (by rw [← hinv1.2]; exact hd)
        · exact digitRunAt_all s l1.position
      · rw [core_digit_overflow hA hinv1 hd hfuel1 (by omega)] at h
        exact absurd h (by simp)
    have hplt : l1.position < s.length := by
      apply lt_of_chAt_ne
      rw [← hinv1.2]
      exact h0
    rw [core_illegal hA hinv1 hk hEq hBg h0 hq (bool_eq_false hl) (bool_eq_false hd) _] at h
    simp only [Res.ok.injEq, Prod.mk.injEq] at h
    obtain ⟨ht, -⟩ := h
    subst ht
    exact ⟨rfl, lexeme_single hplt _⟩

/-- Witness for the amended C1 at the input let x = 5, for the first token. -/
theorem c1_amended_span_slicing_witness :
    spanOK ['l', 'e', 't', ' ', 'x', ' ', '=', ' ', '5']
      ⟨⟨0, 3⟩, .LET⟩ := by
  exact c1_amended_span_slicing (by unfold allAscii; decide)
    (l := ⟨0, 1, 'l'⟩) (⟨rfl, by decide⟩)
    (show next_token ['l', 'e', 't', ' ', 'x', ' ', '=', ' ', '5'] ⟨0, 1, 'l'⟩ =
      .ok (⟨⟨0, 3⟩, .LET⟩, ⟨3, 4, ' '⟩) by decide)

lemma opChar_facts (c : Char) (h : opChar c = true) :
    c.toNat < 128 ∧ is_ascii_whitespace c = false ∧ c ≠ Char.ofNat 0 := by
  simp only [opChar, Bool.or_eq_true, decide_eq_true_eq] at h
  rcases h with (hs | he) | hb
  · by_cases h1 : c = ';'
    · subst h1
      decide
    by_cases h2 : c = '('
    · subst h2
      decide
    by_cases h3 : c = ')'
    · subst h3
      decide
    by_cases h4 : c = ','
    · subst h4
      decide
    by_cases h5 : c = '+'
    · subst h5
      decide
    by_cases h6 : c = '-'
    · subst h6
      decide
    by_cases h7 : c = '*'
    · subst h7
      decide
    by_cases h8 : c = '/'
    · subst h8
      decide
    by_cases h9 : c = '<'
    · subst h9
      decide
    by_cases h10 : c = '>'
    · subst h10
      decide
    by_cases h11 : c = '\x7b'
    · subst h11
      decide
    by_cases h12 : c = '\x7d'
    · subst h12
      decide
    by_cases h13 : c = '['
    · subst h13
      decide
    by_cases h14 : c = ':'
    · subst h14
      decide
    by_cases h15 : c = ']'
    · subst h15
      decide
    exfalso
    simp [opKind, h1, h2, h3, h4, h5, h6, h7, h8, h9, h10, h11, h12, h13, h14, h15] at hs
  · subst he
    decide
  · subst hb
    decide

lemma opKind_ne_eof {c : Char} {k : TokenKind} (h : opKind c = some k) : k ≠ .EOF := by
  by_cases h1 : c = ';'
  · subst h1
    simp [opKind] at h
    subst h
    decide
  by_cases h2 : c = '('
  · subst h2
    simp [opKind] at h
    subst h
    decide
  by_cases h3 : c = ')'
  · subst h3
    simp [opKind] at h
    subst h
    decide
  by_cases h4 : c = ','
  · subst h4
    simp [opKind] at h
    subst h
    decide
  by_cases h5 : c = '+'
  · subst h5
    simp [opKind] at h
    subst h
    decide
  by_cases h6 : c = '-'
  · subst h6
    simp [opKind] at h
    subst h
    decide
  by_cases h7 : c = '*'
  · subst h7
    simp [opKind] at h
    subst h
    decide
  by_cases h8 : c = '/'
  · subst h8
    simp [opKind] at h
    subst h
    decide
  by_cases h9 : c = '<'
  · subst h9
    simp [opKind] at h
    subst h
    decide
  by_cases h10 : c = '>'
  · subst h10
    simp [opKind] at h
    subst h
    decide
  by_cases h11 : c = '\x7b'
  · subst h11
    simp [opKind] at h
    subst h
    decide
  by_cases h12 : c = '\x7d'
  · subst h12
    simp [opKind] at h
    subst h
    decide
  by_cases h13 : c = '['
  · subst h13
    simp [opKind] at h
    subst h
    decide
  by_cases h14 : c = ':'
  · subst h14
    simp [opKind] at h
    subst h
    decide
  by_cases h15 : c = ']'
  · subst h15
    simp [opKind] at h
    subst h
    decide
  simp [opKind, h1, h2, h3, h4, h5, h6, h7, h8, h9, h10, h11, h12, h13, h14, h15] at h

lemma charKind_of_opKind {c : Char} {k : TokenKind} (hk : opKind c = some k) :
    charKind c = k := by
  unfold charKind
  by_cases h1 : c = '='
  · subst h1
    simp [opKind] at hk
  by_cases h2 : c = '!'
  · subst h2
    simp [opKind] at hk
  rw [if_neg h1, if_neg h2, hk]

lemma specMap_cons_single {c : Char} (h1 : c ≠ '=') (h2 : c ≠ '!') (rest : List Char) :
    specMap (c :: rest) = charKind c :: specMap rest := by
  cases rest with
  | nil => rfl
  | cons d r =>
    simp only [specMap]
    rw [if_neg (fun hcon => hcon.1.elim h1 h2)]

lemma specMap_cons_eq (r : List Char) : specMap ('=' :: '=' :: r) = .EQ :: specMap r := by
  simp [specMap]

lemma specMap_cons_noteq (r : List Char) : specMap ('!' :: '=' :: r) = .NotEq :: specMap r := by
  simp [specMap]

lemma specMap_cons_assign (rest : List Char) (h : ∀ d r, rest = d :: r → d ≠ '=') :
    specMap ('=' :: rest) = .ASSIGN :: specMap rest := by
  cases rest with
  | nil => rfl
  | cons d r =>
    simp only [specMap]
    rw [if_neg (fun hcon => h d r rfl hcon.2)]
    rw [show charKind '=' = TokenKind.ASSIGN from by decide]

lemma specMap_cons_bang (rest : List Char) (h : ∀ d r, rest = d :: r → d ≠ '=') :
    specMap ('!' :: rest) = .BANG :: specMap rest := by
  cases rest with
  | nil => rfl
  | cons d r =>
    simp only [specMap]
    rw [if_neg (fun hcon => h d r rfl hcon.2)]
    rw [show charKind '!' = TokenKind.BANG from by decide]

lemma c9_aux {s : List Char} (hop : ∀ c ∈ s, opChar c = true) :
    ∀ (m : Nat) (l : Lexer), LexInv s l → l.position ≤ s.length →
      s.length - l.position < m →
      ∃ ts, test_token_set s m l = .ok ts ∧
        ts.map Token.kind = specMap (s.drop l.position) ++ [.EOF]
  | 0, l, _, _, hm => absurd hm (by omega)
  | m + 1, l, hinv, hple, hm => by
    have hA : allAscii s := fun c hc => (opChar_facts c (hop c hc)).1
    by_cases hend : s.length ≤ l.position
    · have hch : l.ch = Char.ofNat 0 := by
        rw [hinv.2]
        exact chAt_of_le hend
      have hstep := eof_step hinv.1 (by rw [byteLen_ascii hA]; omega) hch
      refine ⟨[⟨⟨l.position, l.position + 1⟩, .EOF⟩], ?_, ?_⟩
      · simp only [test_token_set]
        rw [hstep]
        simp [Res.bind]
      · rw [List.drop_eq_nil_of_le hend]
        rfl
    · have hplt : l.position < s.length := by omega
      have hmem : l.ch ∈ s := by
        rw [hinv.2, chAt_lt hplt]
        exact List.get_mem s l.position hplt
      have hcop : opChar l.ch = true := hop _ hmem
      have hws : is_ascii_whitespace l.ch = false := (opChar_facts _ hcop).2.1
      have hnt : next_token s l = next_token_core s (byteLen s + 2) l := by
        unfold next_token
        rw [skip_whitespace_id _ hws]
        rfl
      have hdropc : s.drop l.position = l.ch :: s.drop (l.position + 1) := by
        rw [drop_chAt_cons hplt, ← hinv.2]
      cases hk : opKind l.ch with
      | some k =>
        have hne1 : l.ch ≠ '=' := fun hc => by rw [hc] at hk; simp [opKind] at hk
        have hne2 : l.ch ≠ '!' := fun hc => by rw [hc] at hk; simp [opKind] at hk
        have hkek := charKind_of_opKind hk
        have hkne := opKind_ne_eof hk
        have hstep := core_op hA hinv hk (byteLen s + 2)
        obtain ⟨ts', hts', hmap'⟩ := c9_aux hop m
          ⟨l.position + 1, l.position + 1 + 1, chAt s (l.position + 1)⟩ ⟨rfl, rfl⟩
          (show l.position + 1 ≤ s.length by omega)
          (show s.length - (l.position + 1) < m by omega)
        refine ⟨⟨⟨l.position, l.position + 1⟩, k⟩ :: ts', ?_, ?_⟩
        · simp only [test_token_set]
          rw [hnt, hstep]
          simp only [Res.bind]
          rw [if_neg (by simpa using hkne), hts']
        · simp only [List.map_cons, hmap']
          rw [hdropc, specMap_cons_single hne1 hne2, hkek]
          rfl
      | none =>
        have hor : l.ch = '=' ∨ l.ch = '!' := by
          simp only [opChar, hk, Option.isSome_none, Bool.false_or, Bool.or_eq_true,
            decide_eq_true_eq] at hcop
          exact hcop
        have hheadne : ∀ hpk : ¬chAt s (l.position + 1) = '=',
            ∀ d r, s.drop (l.position + 1) = d :: r → d ≠ '=' := by
          intro hpk d r hdr
          have hlen1 : l.position + 1 < s.length := by
            have hlg := congrArg List.length hdr
            simp only [List.length_drop, List.length_cons] at hlg
            omega
          rw [drop_chAt_cons hlen1] at hdr
          injection hdr with hd1 _
          intro hde
          exact hpk (by rw [hd1, hde])
        rcases hor with hceq | hcbg
        · by_cases hpk : chAt s (l.position + 1) = '='
          · have hp1 : l.position + 1 < s.length := lt_of_chAt_ne (by rw [hpk]; decide)
            have hstep := core_eq hA hinv hceq hpk (byteLen s + 2)
            obtain ⟨ts', hts', hmap'⟩ := c9_aux hop m
              ⟨l.position + 1 + 1, l.position + 1 + 1 + 1, chAt s (l.position + 1 + 1)⟩
              ⟨rfl, rfl⟩
              (show l.position + 1 + 1 ≤ s.length by omega)
              (show s.length - (l.position + 1 + 1) < m by omega)
            refine ⟨⟨⟨l.position + 1, l.position + 1 + 1⟩, .EQ⟩ :: ts', ?_, ?_⟩
            · simp only [test_token_set]
              rw [hnt, hstep]
              simp only [Res.bind]
              rw [if_neg (by decide), hts']
            · simp only [List.map_cons, hmap']
              rw [hdropc, drop_chAt_cons hp1, hceq, hpk, specMap_cons_eq]
              rfl
          · have hstep := core_assign hA hinv hceq hpk (byteLen s + 2)
            obtain ⟨ts', hts', hmap'⟩ := c9_aux hop m
              ⟨l.position + 1, l.position + 1 + 1, chAt s (l.position + 1)⟩ ⟨rfl, rfl⟩
              (show l.position + 1 ≤ s.length by omega)
              (show s.length - (l.position + 1) < m by omega)
            refine ⟨⟨⟨l.position, l.position + 1⟩, .ASSIGN⟩ :: ts', ?_, ?_⟩
            · simp only [test_token_set]
              rw [hnt, hstep]
              simp only [Res.bind]
              rw [if_neg (by decide), hts']
            · simp only [List.map_cons, hmap']
              rw [hdropc, hceq, specMap_cons_assign _ (hheadne hpk)]
              rfl
        · by_cases hpk : chAt s (l.position + 1) = '='
          · have hp1 : l.position + 1 < s.length := lt_of_chAt_ne (by rw [hpk]; decide)
            have hstep := core_noteq hA hinv hcbg hpk (byteLen s + 2)
            obtain ⟨ts', hts', hmap'⟩ := c9_aux hop m
              ⟨l.position + 1 + 1, l.position + 1 + 1 + 1, chAt s (l.position + 1 + 1)⟩
              ⟨rfl, rfl⟩
              (show l.position + 1 + 1 ≤ s.length by omega)
              (show s.length - (l.position + 1 + 1) < m by omega)
            refine ⟨⟨⟨l.position + 1, l.position + 1 + 1⟩, .NotEq⟩ :: ts', ?_, ?_⟩
            · simp only [test_token_set]
              rw [hnt, hstep]
              simp only [Res.bind]
              rw [if_neg (by decide), hts']
            · simp only [List.map_cons, hmap']
              rw [hdropc, drop_chAt_cons hp1, hcbg, hpk, specMap_cons_noteq]
              rfl
          · have hstep := core_bang hA hinv hcbg hpk (byteLen s + 2)
            obtain ⟨ts', hts', hmap'⟩ := c9_aux hop m
              ⟨l.position + 1, l.position + 1 + 1, chAt s (l.position + 1)⟩ ⟨rfl, rfl⟩
              (show l.position + 1 ≤ s.length by omega)
              (show s.length - (l.position + 1) < m by omega)
            refine ⟨⟨⟨l.position, l.position + 1⟩, .BANG⟩ :: ts', ?_, ?_⟩
            · simp only [test_token_set]
              rw [hnt, hstep]
              simp only [Res.bind]
              rw [if_neg (by decide), hts']
            · simp only [List.map_cons, hmap']
              rw [hdropc, hcbg, specMap_cons_bang _ (hheadne hpk)]
              rfl

lemma charKind_ne_eof (c : Char) : charKind c ≠ .EOF := by
  unfold charKind
  by_cases h1 : c = '='
  · rw [if_pos h1]
    decide
  rw [if_neg h1]
  by_cases h2 : c = '!'
  · rw [if_pos h2]
    decide
  rw [if_neg h2]
  cases hk : opKind c with
  | some k => exact opKind_ne_eof hk
  | none => decide

lemma eof_not_mem_specMap : ∀ (cs : List Char), TokenKind.EOF ∉ specMap cs
  | [] => by simp [specMap]
  | [c] => by
    intro hmem
    simp only [specMap, List.mem_singleton] at hmem
    exact charKind_ne_eof c hmem.symm
  | c :: d :: r => by
    intro hmem
    simp only [specMap] at hmem
    by_cases hcon : (c = '=' ∨ c = '!') ∧ d = '='
    · rw [if_pos hcon] at hmem
      rcases List.mem_cons.mp hmem with hh | ht
      · by_cases hc : c = '='
        · rw [if_pos hc] at hh
          exact absurd hh (by decide)
        · rw [if_neg hc] at hh
          exact absurd hh (by decide)
      · exact eof_not_mem_specMap r ht
    · rw [if_neg hcon] at hmem
      rcases List.mem_cons.mp hmem with hh | ht
      · exact charKind_ne_eof c hh.symm
      · exact eof_not_mem_specMap (d :: r) ht

/-- C9: for every input consisting only of recognized operator and
punctuation characters, the token kind sequence produced by repeated
next_token calls (collected until the first Eof) equals the
character-by-character kind mapping of section 4.1, with its lookahead
pairing of equals-equals and bang-equals, terminated by exactly one Eof:
the mapping itself contains no Eof. -/
theorem c9_operator_mapping {s : List Char} (hop : ∀ c ∈ s, opChar c = true) :
    ∃ l0 ts, lexer_new s = .ok l0 ∧
      test_token_set s (s.length + 1) l0 = .ok ts ∧
      ts.map Token.kind = specMap s ++ [.EOF] ∧
      TokenKind.EOF ∉ specMap s := by
  have hA : allAscii s := fun c hc => (opChar_facts c (hop c hc)).1
  obtain ⟨ts, hts, hmap⟩ := c9_aux hop (s.length + 1) ⟨0, 1, chAt s 0⟩ ⟨rfl, rfl⟩
    (show (0 : Nat) ≤ s.length by omega) (show s.length - 0 < s.length + 1 by omega)
  refine ⟨⟨0, 1, chAt s 0⟩, ts, lexer_new_ascii hA, hts, ?_, eof_not_mem_specMap s⟩
  simpa using hmap

/-- Witness for C9 at the input plus equals equals bang. -/
theorem c9_operator_mapping_witness :
    ∃ l0 ts, lexer_new ['+', '=', '=', '!'] = .ok l0 ∧
      test_token_set ['+', '=', '=', '!'] 5 l0 = .ok ts ∧
      ts.map Token.kind = specMap ['+', '=', '=', '!'] ++ [.EOF] ∧
      TokenKind.EOF ∉ specMap ['+', '=', '=', '!'] :=
  c9_operator_mapping (by decide)
